import Mathlib

/-!
# Verification of the audiogram segment-timing pipeline

Shallow embedding of the segment-timing and synchronized-rendering core of
the audiograffiti application: the segment normalizer, the character-script
parser, the speaker-segment mapper, the caption layout engine and the
gap-aware segment lookup, as implemented in `src/app/page.tsx` and
`src/app/client-page.jsx` (the two files contain textually identical copies
of the shared timing functions).

Numbers are modelled by `ℚ` (the algorithms only add, subtract, multiply,
divide and compare), JavaScript strings by `String` with explicit
character-list implementations of `trim` / `split` / `toUpperCase`, and the
possibly-absent values (`undefined` / `null`, e.g. the total-duration hint
or the speaker field) by `Option`.
-/

/-- A timed span / caption segment.  Mirrors the record
`{ start, end, text }` used throughout `page.tsx` and `client-page.jsx`;
`speaker` is the optional field added by `mapSegmentsToSpeakers`
(`null`/absent is `none`). `end` is spelled `«end»` because `end` is a
reserved word in Lean. -/
structure Seg where
  start : ℚ
  «end» : ℚ
  text : String
  speaker : Option String := none
deriving DecidableEq, Repr

/-- A parsed script line `{ speaker, text }` (`parseCharacterScript`). -/
structure ScriptLine where
  speaker : String
  text : String
deriving DecidableEq, Repr

/-- A speaker timing entry `{ speaker, startTime, endTime }` as supplied by
the TTS backend or estimated in `mapSegmentsToSpeakers`. -/
structure SpeakerTiming where
  speaker : String
  startTime : ℚ
  endTime : ℚ
deriving DecidableEq, Repr

/- ===================== JavaScript string primitives ===================== -/

/-- The whitespace class used for modelling JS `\s` / `trim`. -/
def isWs (c : Char) : Bool :=
  c = ' ' || c = '\t' || c = '\r' || c = '\n'

/-- Drop leading whitespace from a character list. -/
def dropWsLeft (l : List Char) : List Char :=
  l.dropWhile isWs

/-- `String.trim` / JS `String.prototype.trim` on the character list. -/
def trimChars (l : List Char) : List Char :=
  ((l.dropWhile isWs).reverse.dropWhile isWs).reverse

/-- JS `s.trim()`. -/
def jsTrim (s : String) : String :=
  ⟨trimChars s.data⟩

/-- Split a character list on a separator character (JS `s.split(c)`):
`"a\nb".split('\n') = ["a","b"]`, `"".split('\n') = [""]`. -/
def splitOnCharAux (c : Char) (acc : List Char) :
    List Char → List (List Char)
  | [] => [acc.reverse]
  | x :: xs =>
    if x = c then acc.reverse :: splitOnCharAux c [] xs
    else splitOnCharAux c (x :: acc) xs

/-- JS `s.split(c)` as lists of characters. -/
def splitOnChar (c : Char) (l : List Char) : List (List Char) :=
  splitOnCharAux c [] l

/-- Accumulator pass producing the maximal runs of non-whitespace
characters (`cur` holds the current run, reversed). -/
def wsRunsAux (cur : List Char) : List Char → List (List Char)
  | [] => if cur = [] then [] else [cur.reverse]
  | c :: cs =>
    if isWs c then
      if cur = [] then wsRunsAux [] cs else cur.reverse :: wsRunsAux [] cs
    else wsRunsAux (c :: cur) cs

/-- Maximal runs of non-whitespace characters.  This is the semantics of
`s.trim().replace(/\s+/g, ' ').split(' ').filter(Boolean)` in `splitWords`. -/
def wsRuns (l : List Char) : List (List Char) :=
  wsRunsAux [] l

/-- `splitWords` from the source:
`s.trim().replace(/\s+/g, ' ').split(' ').filter(Boolean)`. -/
def splitWords (s : String) : List String :=
  (wsRuns s.data).map String.mk

/-- JS `arr.join(' ')`. -/
def joinSpace : List String → String
  | [] => ""
  | [w] => w
  | w :: ws => w ++ " " ++ joinSpace ws

/-- ASCII upper-casing of one character (JS `toUpperCase` on the letters,
spaces and hyphens that can occur in a speaker tag). -/
def upChar (c : Char) : Char :=
  if 'a' ≤ c ∧ c ≤ 'z' then Char.ofNat (c.toNat - 32) else c

/-- JS `s.toUpperCase()` (ASCII). -/
def jsToUpper (s : String) : String :=
  ⟨s.data.map upChar⟩

/-- JS `s.length` (UTF-16 units; all strings handled here are ASCII). -/
def jsStrLen (s : String) : ℕ :=
  s.data.length

/-- JS `a || b` on nullable strings: `some s` is falsy iff `s = ""`. -/
def jsOrS : Option String → Option String → Option String
  | some s, b => if s = "" then b else some s
  | none, b => b

/- ========================= Segment Normalizer ========================= -/

/-- The loop body of `coalesceSegments`: `last` is the (mutable) final
element of the `out` array, not yet committed.  A span is merged into it
when both the accumulated duration and the span's duration are below
`minDur`; merging concatenates the texts and extends `end` (the JS code
mutates `last.text` / `last.end`, keeping `last.start` and `last.speaker`). -/
def coalesceAux (minDur : ℚ) (last : Seg) : List Seg → List Seg
  | [] => [last]
  | s :: rest =>
    if last.«end» - last.start < minDur ∧ s.«end» - s.start < minDur then
      coalesceAux minDur
        { last with text := jsTrim (last.text ++ " " ++ s.text), «end» := s.«end» } rest
    else
      last :: coalesceAux minDur s rest

/-- `coalesceSegments(segments, minDur = 0.4)` from the source. -/
def coalesceSegments (segments : List Seg) (minDur : ℚ := 2/5) : List Seg :=
  match segments with
  | [] => []
  | s :: rest => coalesceAux minDur s rest

/-- The chunking loop of `tightenSegments`, fuelled for structural
recursion (`m + 1` is the chunk size; each step consumes at least one word,
so `fuel = words.length` makes the fuel-exhausted case unreachable). -/
def chunksGo (m : ℕ) : ℕ → List String → List String
  | _, [] => []
  | 0, l => [joinSpace l]
  | f + 1, w :: ws =>
    joinSpace ((w :: ws).take (m + 1)) ::
      chunksGo m f ((w :: ws).drop (m + 1))

/-- `words.slice(i, i + maxWords)` chunking loop in `tightenSegments`
(the source only ever uses `maxWords ≥ 6`; `maxWords = 0` is mapped to the
empty chunk list so the definition is total). -/
def chunksOf (maxWords : ℕ) (words : List String) : List String :=
  match maxWords with
  | 0 => []
  | m + 1 => chunksGo m words.length words

/-- The per-chunk segment construction loop of `tightenSegments`: chunk `i`
spans `[start + i*per, start + (i+1)*per]`. -/
def chunkSegs (start per : ℚ) (i : ℕ) : List String → List Seg
  | [] => []
  | c :: cs =>
    { start := start + i * per, «end» := start + (i + 1) * per, text := c } ::
      chunkSegs start per (i + 1) cs

/-- `tightenSegments(segs, maxWords = 18)` from the source: a segment with
more than `maxWords` words is split into equal-duration chunks. -/
def tightenSegments (segs : List Seg) (maxWords : ℕ := 18) : List Seg :=
  segs.flatMap fun s =>
    let words := splitWords s.text
    if words.length ≤ maxWords then [s]
    else
      let chunks := chunksOf maxWords words
      let per := (s.«end» - s.start) / chunks.length
      chunkSegs s.start per 0 chunks

/-- The sanitize `map` inside `normalizeSegments`: clamp `start`/`end` to
`≥ 0`, trim the text (the new object literal drops any `speaker` field). -/
def sanitizeSeg (s : Seg) : Seg :=
  { start := max 0 s.start, «end» := max 0 s.«end», text := jsTrim s.text }

/-- Stable insertion of one element into a list, placing it before the
first element with a strictly larger key.  Together with `sortByKey` this
is the (stable) behaviour of JS `Array.prototype.sort` with comparator
`(a, b) => key(a) - key(b)`. -/
def insertByKey (key : Seg → ℚ) (x : Seg) : List Seg → List Seg
  | [] => [x]
  | y :: ys =>
    if key x < key y then x :: y :: ys else y :: insertByKey key x ys

/-- Stable sort by a rational key (left fold of stable insertions). -/
def sortByKey (key : Seg → ℚ) (l : List Seg) : List Seg :=
  l.foldl (fun acc x => insertByKey key x acc) []

/-- The de-overlap loop of `normalizeSegments`: pull a segment's `start`
forward to the previous segment's `end` when they overlap; `prevEnd` is
`out[i-1].end` (which the loop never modifies after position `i-1`). -/
def deoverlapAux (prevEnd : ℚ) : List Seg → List Seg
  | [] => []
  | s :: rest =>
    let s' := if s.start < prevEnd then { s with start := prevEnd } else s
    s' :: deoverlapAux s'.«end» rest

/-- The whole de-overlap pass (the loop starts at `i = 1`, so the first
segment is never modified). -/
def deoverlap : List Seg → List Seg
  | [] => []
  | s :: rest => s :: deoverlapAux s.«end» rest

/-- Replace the last element of a list by `f` of it. -/
def mapLast (f : Seg → Seg) : List Seg → List Seg
  | [] => []
  | [s] => [f s]
  | s :: rest => s :: mapLast f rest

/-- The tail-extension step of `normalizeSegments`:
`total = isFinite(g) && g > 0 ? g : (last?.end ?? 0)`, and when the list is
non-empty and `total > 0` the last segment's `end` becomes
`max(last.end, total)`.  The hint is `none` when `totalDurGuess` is
`undefined` (or otherwise non-finite). -/
def extendTail (totalDurGuess : Option ℚ) (l : List Seg) : List Seg :=
  match l.getLast? with
  | none => l
  | some last =>
    let total : ℚ :=
      match totalDurGuess with
      | some g => if 0 < g then g else last.«end»
      | none => last.«end»
    if 0 < total then
      mapLast (fun s => { s with «end» := max s.«end» total }) l
    else l

/-- `normalizeSegments(segs, totalDurGuess?)` from the source: coalesce,
tighten, sanitize (clamp / trim / drop degenerate / sort by `start`),
de-overlap without closing real gaps, extend the tail to a known total
duration. -/
def normalizeSegments (segs : List Seg) (totalDurGuess : Option ℚ := none) :
    List Seg :=
  let out := tightenSegments (coalesceSegments segs)
  let out := (out.map sanitizeSeg).filter (fun s => s.start < s.«end»)
  let out := sortByKey Seg.start out
  let out := deoverlap out
  extendTail totalDurGuess out

/- ==================== Gap-aware segment lookup ==================== -/

/-- A JavaScript number as received by `segmentIndexAtTime` for the query
time: either a finite value or one of the non-finite values
(`NaN`, `Infinity`, `-Infinity`), which the function clamps to `0`. -/
inductive JSNum where
  | fin (q : ℚ)
  | nan
  | posInf
  | negInf
deriving DecidableEq, Repr

/-- `if (!Number.isFinite(t) || t < 0) t = 0;` -/
def jsClampTime : JSNum → ℚ
  | .fin q => if q < 0 then 0 else q
  | _ => 0

/-- `EPS = 1e-3` from the source. -/
def EPS : ℚ := 1/1000

/-- The in-window test of `segmentIndexAtTime`:
`t >= s.start - leadInSec - EPS && t <= s.end + tailOutSec + EPS`. -/
def inWindow (s : Seg) (t leadInSec tailOutSec : ℚ) : Bool :=
  s.start - leadInSec - EPS ≤ t ∧ t ≤ s.«end» + tailOutSec + EPS

/-- The scan loop of `segmentIndexAtTime`.  `i` is the current loop index
and `prev` the segment at index `i - 1` (if any); the trailing `[]` case is
the past-the-last-segment hold check after the loop. -/
def segIdxAux (t holdGapSec leadInSec tailOutSec : ℚ) :
    Option Seg → ℕ → List Seg → Int
  | prev, i, [] =>
    match prev with
    | some last => if t - last.«end» ≤ holdGapSec + EPS then (i : Int) - 1 else -1
    | none => -1
  | prev, i, s :: rest =>
    if inWindow s t leadInSec tailOutSec then (i : Int)
    else if t < s.start - EPS then
      match prev with
      | some p =>
        if s.start - p.«end» ≤ holdGapSec + EPS then (i : Int) - 1 else -1
      | none => -1
    else segIdxAux t holdGapSec leadInSec tailOutSec (some s) (i + 1) rest

/-- `segmentIndexAtTime(segs, t, holdGapSec = 0.05, leadInSec = 0.03,
tailOutSec = 0.06)` from the source (identical in `page.tsx` and
`client-page.jsx`). -/
def segmentIndexAtTime (segs : List Seg) (t : JSNum)
    (holdGapSec : ℚ := 1/20) (leadInSec : ℚ := 3/100)
    (tailOutSec : ℚ := 3/50) : Int :=
  if segs = [] then -1
  else
    segIdxAux (jsClampTime t) holdGapSec leadInSec tailOutSec none 0 segs

/- ======================== Script Parser ======================== -/

/-- One regex character class: `[A-Z\s\-]` under the `i` flag, i.e. a
letter, whitespace or hyphen — the characters allowed in a speaker tag. -/
def isTagChar (c : Char) : Bool :=
  ('A' ≤ c ∧ c ≤ 'Z') || ('a' ≤ c ∧ c ≤ 'z') || isWs c || c = '-'

/-- An ASCII letter (`[A-Z]` under the `i` flag). -/
def isLetter (c : Char) : Bool :=
  ('A' ≤ c ∧ c ≤ 'Z') || ('a' ≤ c ∧ c ≤ 'z')

/-- Consume the optional decorations `\*?\*?\[?` at the start of a line.
Each optional matches one specific character, and the following `[A-Z]`
can match none of them, so greedy matching with backtracking is equivalent
to this deterministic stripping. -/
def stripDecor (l : List Char) : List Char :=
  let l := match l with | '*' :: r => r | _ => l
  let l := match l with | '*' :: r => r | _ => l
  match l with | '[' :: r => r | _ => l

/-- Consume the optional closing decorations `\]?\*?\*?` followed by the
mandatory `:` of the tag pattern.  Returns the characters after the colon,
or `none` when the colon is missing. -/
def closeDecor (l : List Char) : Option (List Char) :=
  let l := match l with | ']' :: r => r | _ => l
  let l := match l with | '*' :: r => r | _ => l
  let l := match l with | '*' :: r => r | _ => l
  match l with | ':' :: r => some r | _ => none

/-- The regex match
`/^\*?\*?\[?([A-Z][A-Z\s\-]*)\]?\*?\*?:\s*(.+)$/i` applied to a (trimmed)
line: returns the raw name group and the raw text group.  The name group is
the maximal run of tag characters (the characters that may follow it —
`]`, `*`, `:` — are not in the class, so backtracking cannot shorten it);
`(.+)$` requires a non-empty remainder free of line terminators. -/
def matchTag (l : List Char) : Option (List Char × List Char) :=
  let body := stripDecor l
  match body with
  | [] => none
  | c :: _ =>
    if isLetter c then
      let name := body.takeWhile isTagChar
      match closeDecor (body.dropWhile isTagChar) with
      | some rest =>
        let text := rest.dropWhile isWs
        if text ≠ [] ∧ text.all (fun d => d ≠ '\n' ∧ d ≠ '\r') then
          some (name, text)
        else none
      | none => none
    else none

/-- The result record of `parseCharacterScript`. -/
structure ParsedScript where
  lines : List ScriptLine
  characters : List String
deriving DecidableEq, Repr

/-- The per-line processing of `parseCharacterScript`: trim, skip blanks,
match the tag pattern, upper-case and trim the speaker, trim the text, and
keep the line only when both are non-empty. -/
def parseLine (raw : List Char) : Option ScriptLine :=
  match matchTag (trimChars raw) with
  | none => none
  | some (name, text) =>
    let speaker := jsToUpper (jsTrim ⟨name⟩)
    let txt := jsTrim ⟨text⟩
    if speaker ≠ "" ∧ txt ≠ "" then some ⟨speaker, txt⟩ else none

/-- Fuelled first-occurrence de-duplication (each step removes at least the
head, so `fuel = l.length` makes the fuel-exhausted case unreachable). -/
def dedupGo : ℕ → List String → List String
  | _, [] => []
  | 0, _ => []
  | f + 1, x :: xs => x :: dedupGo f (xs.filter (fun y => y ≠ x))

/-- First-occurrence de-duplication: the iteration order of a JS `Set`. -/
def dedupFirst (l : List String) : List String :=
  dedupGo l.length l

/-- Computable lexicographic comparison of character lists (the order JS
`Array.prototype.sort`'s default string comparison uses; on ASCII the
UTF-16 code-unit order coincides with the codepoint order). -/
def lexLt : List Char → List Char → Bool
  | [], [] => false
  | [], _ :: _ => true
  | _ :: _, [] => false
  | c :: cs, d :: ds => if c < d then true else if d < c then false else lexLt cs ds

/-- Computable `<` on strings (agrees with the standard `String` order,
see `strLt_iff`). -/
def strLt (a b : String) : Bool := lexLt a.data b.data

/-- Stable insertion of a string before the first strictly larger one. -/
def insertStr (x : String) : List String → List String
  | [] => [x]
  | y :: ys => if strLt x y then x :: y :: ys else y :: insertStr x ys

/-- `Array.from(set).sort()`: default JS sort, i.e. lexicographic string
order (stable left-fold insertion; on the duplicate-free character set any
correct sort produces the same list). -/
def sortStrings (l : List String) : List String :=
  l.foldl (fun acc x => insertStr x acc) []

/-- `parseCharacterScript(scriptText)` from `client-page.jsx`.  The
argument is `none` for `null`/`undefined`/non-string inputs (the
`typeof` guard). -/
def parseCharacterScript (scriptText : Option String) : ParsedScript :=
  match scriptText with
  | none => ⟨[], []⟩
  | some s =>
    if s = "" then ⟨[], []⟩
    else
      let lines := (splitOnChar '\n' s.data).filterMap parseLine
      ⟨lines, sortStrings (dedupFirst (lines.map ScriptLine.speaker))⟩

/- ==================== Speaker-Segment Mapper ==================== -/

/-- `segments[segments.length - 1]?.end || 0` (the `|| 0` maps a zero end
to zero, which is the identity on rationals). -/
def jsLastEnd (segs : List Seg) : ℚ :=
  match segs.getLast? with
  | some s => s.«end»
  | none => 0

/-- Number of speaker changes between consecutive script lines
(the `lines[i].speaker !== lines[i-1].speaker` counting loop). -/
def countChanges : List ScriptLine → ℕ
  | a :: b :: rest =>
    (if b.speaker ≠ a.speaker then 1 else 0) + countChanges (b :: rest)
  | _ => 0

/-- The timeline-building loop of the estimation path: a cumulative cursor
starting at `0.2`, a `1.0` pause inserted before a line whose speaker
differs from the previous (truthy) one, and a duration proportional to the
line's character count. -/
def timelineAux (speakTime totalLen : ℚ) (lastSpeaker : Option String)
    (cum : ℚ) : List ScriptLine → List SpeakerTiming
  | [] => []
  | l :: rest =>
    let cum1 :=
      match lastSpeaker with
      | some s => if s ≠ "" ∧ s ≠ l.speaker then cum + 1 else cum
      | none => cum
    let dur := ((jsStrLen l.text : ℚ) / totalLen) * speakTime
    ⟨l.speaker, cum1, cum1 + dur⟩ ::
      timelineAux speakTime totalLen (some l.speaker) (cum1 + dur) rest

/-- The estimated `scriptTimeline` of `mapSegmentsToSpeakers`'s fallback
path: `PAUSE_DURATION = 1.0`, `INITIAL_SILENCE = 0.2`,
`totalSpeakingTime = max(0, D - changes*1.0 - 0.2)` and per-line durations
proportional to character counts. -/
def buildScriptTimeline (lines : List ScriptLine) (totalAudioDuration : ℚ) :
    List SpeakerTiming :=
  let totalLen : ℚ := (lines.map (fun l => (jsStrLen l.text : ℚ))).sum
  let changes : ℚ := (countChanges lines : ℚ)
  let speakTime := max 0 (totalAudioDuration - changes * 1 - 1/5)
  timelineAux speakTime totalLen none (1/5) lines

/-- Midpoint-containment test `mid >= e.startTime && mid < e.endTime`. -/
def containsMid (mid : ℚ) (e : SpeakerTiming) : Bool :=
  e.startTime ≤ mid ∧ mid < e.endTime

/-- Speaker assignment of one segment from a timeline:
`entry?.speaker || parsed.characters[0] || null`. -/
def assignFrom (timeline : List SpeakerTiming) (characters : List String)
    (s : Seg) : Seg :=
  let mid := (s.start + s.«end») / 2
  { s with
    speaker :=
      jsOrS ((timeline.find? (containsMid mid)).map SpeakerTiming.speaker)
        (jsOrS characters.head? none) }

/-- `mapSegmentsToSpeakers(segments, scriptText, speakerTimings = null)`
from `client-page.jsx`: prefer the backend-supplied timings, otherwise
estimate a timeline from the script. -/
def mapSegmentsToSpeakers (segments : List Seg) (scriptText : String)
    (speakerTimings : Option (List SpeakerTiming) := none) : List Seg :=
  if scriptText = "" ∨ segments = [] then segments
  else if (parseCharacterScript (some scriptText)).lines = [] then segments
  else
    match speakerTimings with
    | some tms =>
      if tms ≠ [] then
        segments.map
          (assignFrom tms (parseCharacterScript (some scriptText)).characters)
      else
        segments.map
          (assignFrom
            (buildScriptTimeline (parseCharacterScript (some scriptText)).lines
              (jsLastEnd segments))
            (parseCharacterScript (some scriptText)).characters)
    | none =>
      segments.map
        (assignFrom
          (buildScriptTimeline (parseCharacterScript (some scriptText)).lines
            (jsLastEnd segments))
          (parseCharacterScript (some scriptText)).characters)

/- ==================== Caption Layout Engine ==================== -/

/-- JS `Math.round` (round half toward `+∞`). -/
def jround (q : ℚ) : ℤ :=
  ⌊q + 1/2⌋

/-- `wrapCaption(ctx, text, maxWidth)`: greedy word wrap; a word is always
placed even if it alone overflows.  `measure` abstracts
`ctx.measureText(test).width` for the current font. -/
def wrapCaptionAux (measure : String → ℚ) (maxWidth : ℚ) (cur : String) :
    List String → List String
  | [] => if cur = "" then [] else [cur]
  | w :: ws =>
    let test := if cur = "" then w else cur ++ " " ++ w
    if measure test ≤ maxWidth ∨ cur = "" then
      wrapCaptionAux measure maxWidth test ws
    else cur :: wrapCaptionAux measure maxWidth w ws

/-- `wrapCaption` from the source (`(text || '').split(' ').filter(Boolean)`
then the greedy packing loop). -/
def wrapCaption (measure : String → ℚ) (text : String) (maxWidth : ℚ) :
    List String :=
  wrapCaptionAux measure maxWidth ""
    ((splitOnChar ' ' text.data).map String.mk |>.filter (fun w => w ≠ ""))

/-- `MAX_LINES` in `page.tsx`. -/
def MAX_LINES : ℕ := 3

/-- The fit test inside `sizeFor`: at font size `mid`, wrapping must give
at most `MAX_LINES` lines and a block height `(lines-1) * lineHeight`
within the caption box (`lineHeight = Math.round(mid * 1.14)`).
`measureAt` abstracts `ctx.measureText` after `ctx.font` is set to size
`mid`. -/
def okFit (measureAt : ℤ → String → ℚ) (boxW boxH : ℚ) (mid : ℤ)
    (text : String) : Bool :=
  let lh := jround ((mid : ℚ) * (57/50))
  let lines := wrapCaption (measureAt mid) text (boxW * (47/50))
  lines.length ≤ MAX_LINES ∧
    (((lines.length : ℤ) - 1) * lh : ℚ) ≤ boxH

/-- The binary search of `sizeFor`: `while (lo <= hi)` with
`mid = Math.floor((lo+hi)/2)`, stepping `lo = mid + 2` / `hi = mid - 2` and
remembering the last size that fit.  Fuelled for structural recursion: each
iteration shrinks `hi - lo` by at least two, so the fuel of `200` used by
`sizeFor` is never exhausted on the actual range 56–220. -/
def searchGo (ok : ℤ → Bool) : ℕ → ℤ → ℤ → ℤ → ℤ
  | 0, _, _, best => best
  | f + 1, lo, hi, best =>
    if lo ≤ hi then
      let mid := (lo + hi) / 2
      if ok mid then searchGo ok f (mid + 2) hi mid
      else searchGo ok f lo (mid - 2) best
    else best

/-- `sizeFor(text)` from `computeUniformCaptionMetrics`: the binary search
over sizes 56–220. -/
def sizeFor (measureAt : ℤ → String → ℚ) (boxW boxH : ℚ) (text : String) :
    ℤ :=
  searchGo (fun mid => okFit measureAt boxW boxH mid text) 200 56 220 56

/-- The caption metrics record `{ size, lineHeight }`. -/
structure CaptionMetrics where
  size : ℤ
  lineHeight : ℤ
deriving DecidableEq, Repr

/-- The text list used by `computeUniformCaptionMetrics`:
`segs.map(s => (s.text || '').trim()).filter(Boolean)`, falling back to the
trimmed fallback text or `'Record or upload a short'`. -/
def textsOf (segs : List Seg) (fallbackText : String) : List String :=
  let texts := (segs.map (fun s => jsTrim s.text)).filter (fun t => t ≠ "")
  if texts = [] then
    [if jsTrim fallbackText = "" then "Record or upload a short"
     else jsTrim fallbackText]
  else texts

/-- `computeUniformCaptionMetrics(ctx, segs, fallbackText)` from
`page.tsx`: the minimum of the per-text maximal sizes (seeded with `220`),
with `lineHeight = Math.round(size * 1.14)`.  `boxW` is the canvas `WIDTH`
(the wrap width is `WIDTH * 0.94`) and `boxH` is `CAP_BOX_H`. -/
def computeUniformCaptionMetrics (measureAt : ℤ → String → ℚ)
    (segs : List Seg) (fallbackText : String) (boxW boxH : ℚ) :
    CaptionMetrics :=
  let texts := textsOf segs fallbackText
  let uniform :=
    texts.foldl (fun u t => min u (sizeFor measureAt boxW boxH t)) 220
  { size := uniform, lineHeight := jround ((uniform : ℚ) * (57/50)) }

/- ======================= Normalizer invariants ======================= -/

theorem deoverlapAux_head_start (e : ℚ) (l : List Seg) :
    ∀ x ∈ (deoverlapAux e l).head?, e ≤ x.start := by
  cases l with
  | nil => simp [deoverlapAux]
  | cons s rest =>
    intro x hx
    simp only [deoverlapAux, List.head?_cons, Option.mem_def, Option.some_inj] at hx
    subst hx
    by_cases h : s.start < e <;> simp [h]
    linarith

theorem deoverlapAux_chain (l : List Seg) :
    ∀ e : ℚ, List.Chain' (fun u v => u.«end» ≤ v.start) (deoverlapAux e l) := by
  induction l with
  | nil => intro e; simp [deoverlapAux]
  | cons s rest ih =>
    intro e
    rw [deoverlapAux, List.chain'_cons']
    refine ⟨?_, ih _⟩
    intro y hy
    exact deoverlapAux_head_start _ rest y hy

theorem deoverlap_chain (l : List Seg) :
    List.Chain' (fun u v => u.«end» ≤ v.start) (deoverlap l) := by
  cases l with
  | nil => simp [deoverlap]
  | cons s rest =>
    rw [deoverlap, List.chain'_cons']
    exact ⟨fun y hy => deoverlapAux_head_start _ rest y hy, deoverlapAux_chain rest _⟩

theorem mapLast_head_start (f : Seg → Seg) (hf : ∀ s, (f s).start = s.start)
    (l : List Seg) :
    ∀ x ∈ (mapLast f l).head?, ∃ y ∈ l.head?, x.start = y.start := by
  cases l with
  | nil => simp [mapLast]
  | cons s rest =>
    cases rest with
    | nil =>
      intro x hx
      simp only [mapLast, List.head?_cons, Option.mem_def, Option.some_inj] at hx
      exact ⟨s, by simp, by rw [← hx, hf]⟩
    | cons a t =>
      intro x hx
      simp only [mapLast, List.head?_cons, Option.mem_def, Option.some_inj] at hx
      exact ⟨s, by simp, by rw [← hx]⟩

theorem chain'_mapLast (f : Seg → Seg) (hf : ∀ s, (f s).start = s.start) :
    ∀ l : List Seg, List.Chain' (fun u v => u.«end» ≤ v.start) l →
      List.Chain' (fun u v => u.«end» ≤ v.start) (mapLast f l) := by
  intro l
  induction l with
  | nil => simp [mapLast]
  | cons s rest ih =>
    cases rest with
    | nil => intro _; simp [mapLast]
    | cons a t =>
      intro h
      rw [List.chain'_cons'] at h
      show List.Chain' _ (s :: mapLast f (a :: t))
      rw [List.chain'_cons']
      refine ⟨?_, ih h.2⟩
      intro y hy
      obtain ⟨z, hz, hzy⟩ := mapLast_head_start f hf (a :: t) y hy
      rw [hzy]
      exact h.1 z hz

theorem extendTail_chain (hint : Option ℚ) (l : List Seg)
    (h : List.Chain' (fun u v => u.«end» ≤ v.start) l) :
    List.Chain' (fun u v => u.«end» ≤ v.start) (extendTail hint l) := by
  unfold extendTail
  cases hl : l.getLast? with
  | none => exact h
  | some last =>
    dsimp only
    split
    · refine chain'_mapLast _ (fun s => ?_) l h
      rfl
    · exact h

/-- **C1.** For every input list of timed spans and every optional
total-duration hint, adjacent elements of `normalizeSegments`' output are
mutually non-overlapping: each segment ends no later than the next one
starts. -/
theorem normalizeSegments_nonoverlap (segs : List Seg) (hint : Option ℚ) :
    List.Chain' (fun u v => u.«end» ≤ v.start)
      (normalizeSegments segs hint) := by
  show List.Chain' (fun u v => u.«end» ≤ v.start)
    (extendTail hint (deoverlap (sortByKey Seg.start
      (((tightenSegments (coalesceSegments segs)).map sanitizeSeg).filter
        (fun s => s.start < s.«end»)))))
  exact extendTail_chain hint _ (deoverlap_chain _)

/- ===================== Lookup totality and bounds ===================== -/

theorem segIdxAux_bound (t h ld tl : ℚ) :
    ∀ (l : List Seg) (prev : Option Seg) (k : ℕ), (prev.isSome → 1 ≤ k) →
      segIdxAux t h ld tl prev k l = -1 ∨
        (0 ≤ segIdxAux t h ld tl prev k l ∧
          segIdxAux t h ld tl prev k l < (k : ℤ) + l.length) := by
  intro l
  induction l with
  | nil =>
    intro prev k hk
    cases prev with
    | none => simp [segIdxAux]
    | some p =>
      have h1 : 1 ≤ k := hk rfl
      by_cases hcond : t - p.«end» ≤ h + EPS <;>
        simp [segIdxAux, hcond] <;> try omega
  | cons s rest ih =>
    intro prev k hk
    by_cases h1 : inWindow s t ld tl
    · right
      simp [segIdxAux, h1]
      try omega
    · by_cases h2 : t < s.start - EPS
      · cases prev with
        | none => simp [segIdxAux, h1, h2]
        | some p =>
          have hk1 : 1 ≤ k := hk rfl
          by_cases h3 : s.start - p.«end» ≤ h + EPS <;>
            simp [segIdxAux, h1, h2, h3] <;> try omega
      · have := ih (some s) (k + 1) (by intro _; omega)
        simp only [segIdxAux, if_neg h1, if_neg h2]
        rcases this with h4 | h4
        · exact Or.inl h4
        · right
          refine ⟨h4.1, ?_⟩
          have := h4.2
          simp only [List.length_cons]
          push_cast at this ⊢
          omega

/-- **C10.** `segmentIndexAtTime` is total and in bounds: for every
segment list, every query time (finite, `NaN`, infinite or negative — the
latter all clamped to `0`) and any tolerances, it returns either `-1` or an
index `i` with `0 ≤ i < segs.length`; on the empty list it returns `-1`. -/
theorem segmentIndexAtTime_total (segs : List Seg) (t : JSNum)
    (h ld tl : ℚ) :
    (segmentIndexAtTime segs t h ld tl = -1 ∨
      (0 ≤ segmentIndexAtTime segs t h ld tl ∧
        segmentIndexAtTime segs t h ld tl < (segs.length : ℤ))) ∧
    segmentIndexAtTime [] t h ld tl = -1 := by
  constructor
  · by_cases hnil : segs = []
    · subst hnil; left; simp [segmentIndexAtTime]
    · have := segIdxAux_bound (jsClampTime t) h ld tl segs none 0 (by simp)
      simp only [segmentIndexAtTime, if_neg hnil]
      simpa using this
  · simp [segmentIndexAtTime]

/- ================== Lookup boundary behaviour (C7) ================== -/

theorem getLast?_cons_or (p : Seg) (ps : List Seg) (prev : Option Seg) :
    ((p :: ps).getLast?).or prev = (ps.getLast?).or (some p) := by
  cases ps with
  | nil => simp
  | cons q qs =>
    rw [List.getLast?_cons_cons]
    obtain ⟨x, hx⟩ := Option.isSome_iff_exists.mp
      (List.getLast?_isSome.mpr (by simp) : (q :: qs).getLast?.isSome)
    simp [hx]

theorem inWindow_eq_false_iff (s : Seg) (t ld tl : ℚ) :
    inWindow s t ld tl = false ↔
      ¬(s.start - ld - EPS ≤ t ∧ t ≤ s.«end» + tl + EPS) := by
  simp [inWindow]

theorem inWindow_eq_true_iff (s : Seg) (t ld tl : ℚ) :
    inWindow s t ld tl = true ↔
      (s.start - ld - EPS ≤ t ∧ t ≤ s.«end» + tl + EPS) := by
  simp [inWindow]

/-- Skipping a prefix of segments on which the scan loop of
`segmentIndexAtTime` neither returns in-window nor hits the
`t < start - EPS` early exit. -/
theorem segIdxAux_skip (t h ld tl : ℚ) (pre : List Seg) :
    ∀ (rest : List Seg) (prev : Option Seg) (k : ℕ),
      (∀ p ∈ pre, inWindow p t ld tl = false ∧ ¬(t < p.start - EPS)) →
      segIdxAux t h ld tl prev k (pre ++ rest) =
        segIdxAux t h ld tl ((pre.getLast?).or prev) (k + pre.length) rest := by
  induction pre with
  | nil => intro rest prev k _; simp
  | cons p ps ih =>
    intro rest prev k hskip
    have hp := hskip p (by simp)
    have step : segIdxAux t h ld tl prev k (p :: (ps ++ rest)) =
        segIdxAux t h ld tl (some p) (k + 1) (ps ++ rest) := by
      simp only [segIdxAux, hp.1, Bool.false_eq_true, if_false, if_neg hp.2]
    rw [List.cons_append, step,
      ih rest (some p) (k + 1) (fun q hq => hskip q (by simp [hq])),
      getLast?_cons_or]
    congr 1
    simp [List.length_cons]
    omega

theorem pre_end_le (s : Seg) (post : List Seg) :
    ∀ pre : List Seg,
      List.Chain' (fun u v => u.«end» ≤ v.start) (pre ++ s :: post) →
      (∀ x ∈ pre, x.start ≤ x.«end») →
      ∀ p ∈ pre, p.«end» ≤ s.start := by
  intro pre
  induction pre with
  | nil => intro _ _ p hp; simp at hp
  | cons p ps ih =>
    intro hchain hwf q hq
    have hchain' := (List.chain'_cons'.mp hchain)
    rcases List.mem_cons.mp hq with hq | hq
    · subst hq
      cases ps with
      | nil =>
        have := hchain'.1 s (by simp)
        exact this
      | cons r rs =>
        have h1 : q.«end» ≤ r.start := hchain'.1 r (by simp)
        have h2 : r.start ≤ r.«end» := hwf r (by simp)
        have h3 : r.«end» ≤ s.start :=
          ih hchain'.2 (fun x hx => hwf x (by simp [hx])) r (by simp)
        linarith
    · exact ih hchain'.2 (fun x hx => hwf x (by simp [hx])) q hq

/-- **C7 (amended).**  In a sorted, non-overlapping, well-formed segment
list, a query at `end + tailOut - ε` (for `0 < ε` small enough that the
query stays inside the segment's window, `ε < end - start - EPS`) resolves
to that segment's index; and a query at `end + tailOut + ε` is outside that
segment's in-window rule as soon as `ε` exceeds the source's `EPS = 1e-3`
slack (the original claim, quantified over every `ε > 0`, fails inside the
slack). -/
theorem segmentIndexAtTime_boundary (pre post : List Seg) (s : Seg)
    (hchain : List.Chain' (fun u v => u.«end» ≤ v.start) (pre ++ s :: post))
    (hwf : ∀ x ∈ pre ++ s :: post, 0 ≤ x.start ∧ x.start < x.«end»)
    (ε : ℚ) (hε : 0 < ε) :
    (ε < s.«end» - s.start - EPS →
      segmentIndexAtTime (pre ++ s :: post) (.fin (s.«end» + 3/50 - ε))
        (1/20) (3/100) (3/50) = (pre.length : ℤ)) ∧
    (EPS < ε →
      inWindow s (s.«end» + 3/50 + ε) (3/100) (3/50) = false) := by
  constructor
  · intro hsmall
    have hEPS : EPS = 1/1000 := rfl
    have hs := hwf s (by simp)
    set t : ℚ := s.«end» + 3/50 - ε with ht
    have ht0 : 0 ≤ t := by rw [ht]; rw [hEPS] at hsmall; linarith [hs.1, hs.2]
    have hclamp : jsClampTime (.fin t) = t := by
      simp [jsClampTime, not_lt.mpr ht0]
    have hne : pre ++ s :: post ≠ [] := by simp
    rw [segmentIndexAtTime, if_neg hne, hclamp]
    have hskip : ∀ p ∈ pre, inWindow p t (3/100) (3/50) = false ∧
        ¬(t < p.start - EPS) := by
      intro p hp
      have hple : p.«end» ≤ s.start :=
        pre_end_le s post pre hchain
          (fun x hx => le_of_lt (hwf x (by simp [hx])).2) p hp
      have hpwf := hwf p (by simp [hp])
      constructor
      · rw [inWindow_eq_false_iff]
        intro hcontra
        rw [hEPS] at hsmall
        have := hcontra.2
        rw [ht] at this
        linarith [hs.2]
      · rw [ht]
        intro hcontra
        rw [hEPS] at hsmall hcontra
        linarith [hpwf.2, hs.2]
    rw [segIdxAux_skip _ _ _ _ pre (s :: post) none 0 hskip]
    have hwin : inWindow s t (3/100) (3/50) = true := by
      rw [inWindow_eq_true_iff, ht, hEPS]
      constructor
      · rw [hEPS] at hsmall
        linarith [hs.2]
      · linarith
    simp [segIdxAux, hwin]
  · intro hbig
    rw [inWindow_eq_false_iff]
    intro hcontra
    have := hcontra.2
    linarith

/-- **C7, counterexample to the unamended claim.**  With `ε = 1/2000`
(inside the source's `EPS = 1e-3` slack) a query at
`end + tailOut + ε` is still inside the in-window rule and still resolves
to the segment, contradicting the claim for arbitrary `ε > 0`. -/
theorem segmentIndexAtTime_boundary_cex :
    0 < (1/2000 : ℚ) ∧
    inWindow ⟨0, 1, "a", none⟩ ((1 : ℚ) + 3/50 + 1/2000) (3/100) (3/50)
      = true ∧
    segmentIndexAtTime [⟨0, 1, "a", none⟩] (.fin (1 + 3/50 + 1/2000))
      (1/20) (3/100) (3/50) = 0 := by
  refine ⟨by norm_num, ?_, ?_⟩
  · rw [inWindow_eq_true_iff]
    norm_num [EPS]
  · rw [segmentIndexAtTime]
    norm_num [segIdxAux, jsClampTime, inWindow, EPS]

/-- **C7, witness.**  The amended boundary theorem applied to the segment
`[0,1]` with `ε = 1/100`. -/
theorem segmentIndexAtTime_boundary_witness :
    segmentIndexAtTime [⟨0, 1, "a", none⟩] (.fin (1 + 3/50 - 1/100))
      (1/20) (3/100) (3/50) = 0 ∧
    inWindow ⟨0, 1, "a", none⟩ ((1 : ℚ) + 3/50 + 1/100) (3/100) (3/50)
      = false := by
  have h := segmentIndexAtTime_boundary [] [] ⟨0, 1, "a", none⟩
    (by simp) (by norm_num) (1/100) (by norm_num)
  refine ⟨?_, h.2 (by norm_num [EPS])⟩
  have h1 := h.1 (by norm_num [EPS])
  simpa using h1

/- ============== Speaker mapping: authoritative path (C4) ============== -/

/-- **C4.**  When a non-empty authoritative `SpeakerTiming` list is
supplied (and the script parses to at least one tagged line), the mapper
assigns each caption segment the speaker of the first timing entry whose
half-open interval `[startTime, endTime)` contains the segment's midpoint
`(start+end)/2` — the result is computed from the timing list alone, so the
character-count estimation is ignored entirely. -/
theorem mapSegmentsToSpeakers_authoritative (segments : List Seg)
    (scriptText : String) (tms : List SpeakerTiming)
    (hseg : segments ≠ []) (hscript : scriptText ≠ "")
    (hlines : (parseCharacterScript (some scriptText)).lines ≠ [])
    (htms : tms ≠ []) (i : ℕ) (hi : i < segments.length)
    (tm : SpeakerTiming)
    (hfind : tms.find?
        (containsMid ((segments[i].start + segments[i].«end») / 2)) = some tm)
    (hsp : tm.speaker ≠ "") :
    (mapSegmentsToSpeakers segments scriptText (some tms))[i]? =
      some { segments[i] with speaker := some tm.speaker } := by
  rw [mapSegmentsToSpeakers]
  rw [if_neg (by push_neg; exact ⟨hscript, hseg⟩)]
  rw [if_neg hlines]
  rw [if_pos htms]
  rw [List.getElem?_map, List.getElem?_eq_getElem hi]
  simp [assignFrom, hfind, jsOrS, hsp]

/-- **C4, witness.**  Segment `[0,2]` with script
`"[ALEX]: Hello\n[JAMIE]: Yo"` and authoritative timing
`JAMIE : [0,10)`: the mapper assigns `JAMIE` (the estimation path would
have assigned `ALEX`, the speaker of the first line). -/
theorem mapSegmentsToSpeakers_authoritative_witness :
    (mapSegmentsToSpeakers [⟨0, 2, "hi", none⟩]
        "[ALEX]: Hello\n[JAMIE]: Yo" (some [⟨"JAMIE", 0, 10⟩]))[0]? =
      some ⟨0, 2, "hi", some "JAMIE"⟩ := by
  have h := mapSegmentsToSpeakers_authoritative [⟨0, 2, "hi", none⟩]
    "[ALEX]: Hello\n[JAMIE]: Yo" [⟨"JAMIE", 0, 10⟩]
    (by simp) (by simp) (by decide) (by simp) 0 (by simp)
    ⟨"JAMIE", 0, 10⟩ ?_ (by simp)
  · exact h
  · rw [List.find?_cons_of_pos]
    simp only [containsMid]
    norm_num

/- ============== Speaker mapping: estimation path (C5) ============== -/

/-- **C5.**  For the script `"[ALEX]: Hello there\n[JAMIE]: Hi Alex"` and
total audio duration `D` taken from the last segment's end, the estimated
timeline used by the mapper's fallback path places JAMIE's line exactly at
`0.2 + durationOfAlex + 1.0`, where
`durationOfAlex = (11/18) * max 0 (D - 1.0 - 0.2)` (11 and 18 being
ALEX's text length and the total script text length). -/
theorem fallback_timeline_jamie_start (segs : List Seg) :
    (buildScriptTimeline
        (parseCharacterScript
          (some "[ALEX]: Hello there\n[JAMIE]: Hi Alex")).lines
        (jsLastEnd segs))[1]? =
      some ⟨"JAMIE",
        1/5 + 11/18 * max 0 (jsLastEnd segs - 1 - 1/5) + 1,
        (1/5 + 11/18 * max 0 (jsLastEnd segs - 1 - 1/5) + 1)
          + 7/18 * max 0 (jsLastEnd segs - 1 - 1/5)⟩ := by
  have hparse : (parseCharacterScript
      (some "[ALEX]: Hello there\n[JAMIE]: Hi Alex")).lines =
      [⟨"ALEX", "Hello there"⟩, ⟨"JAMIE", "Hi Alex"⟩] := by decide
  rw [hparse]
  set D := jsLastEnd segs with hD
  have h11 : jsStrLen "Hello there" = 11 := by decide
  have h7 : jsStrLen "Hi Alex" = 7 := by decide
  have hchn : countChanges
      [⟨"ALEX", "Hello there"⟩, ⟨"JAMIE", "Hi Alex"⟩] = 1 := by decide
  rw [buildScriptTimeline]
  have hlen : ((([⟨"ALEX", "Hello there"⟩, ⟨"JAMIE", "Hi Alex"⟩] :
      List ScriptLine).map (fun l => (jsStrLen l.text : ℚ))).sum) = 18 := by
    simp [h11, h7]
    norm_num
  rw [hlen, hchn]
  simp only [timelineAux]
  rw [h11, h7]
  have hpos : ("ALEX" ≠ "" ∧ "ALEX" ≠ "JAMIE") := by
    constructor <;> decide
  rw [if_pos hpos]
  simp only [List.getElem?_cons_succ, List.getElem?_cons_zero,
    Option.some_inj, SpeakerTiming.mk.injEq]
  refine ⟨by trivial, ?_, ?_⟩ <;> push_cast <;> ring_nf

/- ===================== Script parser properties (C9) ===================== -/

theorem char_le_iff_toNat (c d : Char) : c ≤ d ↔ c.toNat ≤ d.toNat := by
  rw [Char.le_def, UInt32.le_def, BitVec.le_def]
  exact Iff.rfl

theorem toNat_ofNat_small (n : ℕ) (h : n < 55296) :
    (Char.ofNat n).toNat = n := by
  rw [Char.ofNat, dif_pos (Or.inl (by omega : n < 0xd800))]
  simp [Char.ofNatAux, Char.toNat, UInt32.toNat]

theorem upChar_idem (c : Char) : upChar (upChar c) = upChar c := by
  have hza : ('a').toNat = 97 := rfl
  have hzz : ('z').toNat = 122 := rfl
  unfold upChar
  by_cases h : 'a' ≤ c ∧ c ≤ 'z'
  · rw [if_pos h]
    have h1 : c.toNat ≤ 122 := hzz ▸ (char_le_iff_toNat c 'z').mp h.2
    have h2 : 97 ≤ c.toNat := hza ▸ (char_le_iff_toNat 'a' c).mp h.1
    have h3 : (Char.ofNat (c.toNat - 32)).toNat = c.toNat - 32 :=
      toNat_ofNat_small _ (by omega)
    rw [if_neg]
    intro hcon
    have h4 := (char_le_iff_toNat 'a' _).mp hcon.1
    rw [h3, hza] at h4
    omega
  · rw [if_neg h, if_neg h]

theorem jsToUpper_idem (s : String) : jsToUpper (jsToUpper s) = jsToUpper s := by
  show String.mk ((s.data.map upChar).map upChar) = String.mk (s.data.map upChar)
  rw [List.map_map]
  congr 1
  exact List.map_congr_left (fun c _ => upChar_idem c)

theorem parseLine_speaker (raw : List Char) (ln : ScriptLine)
    (h : parseLine raw = some ln) :
    ln.speaker ≠ "" ∧ jsToUpper ln.speaker = ln.speaker := by
  rw [parseLine] at h
  cases hm : matchTag (trimChars raw) with
  | none => rw [hm] at h; exact absurd h (by simp)
  | some nt =>
    obtain ⟨name, text⟩ := nt
    rw [hm] at h
    dsimp only at h
    by_cases hcond : (jsToUpper (jsTrim ⟨name⟩) ≠ "" ∧ jsTrim ⟨text⟩ ≠ "")
    · rw [if_pos hcond] at h
      have hln : ln = ⟨jsToUpper (jsTrim ⟨name⟩), jsTrim ⟨text⟩⟩ :=
        (Option.some_inj.mp h).symm
      subst hln
      exact ⟨hcond.1, jsToUpper_idem _⟩
    · rw [if_neg hcond] at h
      exact absurd h (by simp)

theorem insertStr_perm (x : String) (l : List String) :
    (insertStr x l).Perm (x :: l) := by
  induction l with
  | nil => simp [insertStr]
  | cons y ys ih =>
    rw [insertStr]
    by_cases h : strLt x y
    · rw [if_pos h]
    · rw [if_neg h]
      exact (ih.cons y).trans (List.Perm.swap x y ys)

theorem lexLt_iff : ∀ a b : List Char, lexLt a b = true ↔ List.lt a b := by
  intro a
  induction a with
  | nil =>
    intro b
    cases b with
    | nil =>
      constructor
      · intro h; exact absurd h (by simp [lexLt])
      · intro h; cases h
    | cons d ds =>
      simp only [lexLt]
      exact ⟨fun _ => List.lt.nil d ds, fun _ => trivial⟩
  | cons c cs ih =>
    intro b
    cases b with
    | nil =>
      constructor
      · intro h; exact absurd h (by simp [lexLt])
      · intro h; cases h
    | cons d ds =>
      rw [lexLt]
      by_cases h1 : c < d
      · rw [if_pos h1]
        exact ⟨fun _ => List.lt.head cs ds h1, fun _ => rfl⟩
      · rw [if_neg h1]
        by_cases h2 : d < c
        · rw [if_pos h2]
          constructor
          · intro h; exact absurd h (by simp)
          · intro h
            cases h with
            | head _ _ h' => exact absurd h' h1
            | tail _ h' _ => exact absurd h2 h'
        · rw [if_neg h2]
          rw [ih ds]
          constructor
          · intro h; exact List.lt.tail h1 h2 h
          · intro h
            cases h with
            | head _ _ h' => exact absurd h' h1
            | tail _ _ h' => exact h'

theorem strLt_iff (a b : String) : strLt a b = true ↔ a < b := by
  rw [String.lt_iff_toList_lt]
  have h1 : (a.toList < b.toList) ↔ List.Lex (· < ·) a.data b.data := Iff.rfl
  rw [h1, ← List.lt_iff_lex_lt]
  exact lexLt_iff a.data b.data

theorem insertStr_sorted (x : String) (l : List String)
    (h : l.Sorted (· ≤ ·)) : (insertStr x l).Sorted (· ≤ ·) := by
  induction l with
  | nil => simp [insertStr]
  | cons y ys ih =>
    rw [insertStr]
    rw [List.sorted_cons] at h
    by_cases hlt : strLt x y
    · rw [if_pos hlt]
      rw [List.sorted_cons]
      refine ⟨?_, List.sorted_cons.mpr h⟩
      intro b hb
      have hxy : x < y := (strLt_iff x y).mp hlt
      rcases List.mem_cons.mp hb with hb | hb
      · subst hb; exact le_of_lt hxy
      · exact le_trans (le_of_lt hxy) (h.1 b hb)
    · rw [if_neg hlt]
      rw [List.sorted_cons]
      refine ⟨?_, ih h.2⟩
      intro b hb
      have hb' := (insertStr_perm x ys).mem_iff.mp hb
      have hyx : y ≤ x := by
        by_contra hcon
        push_neg at hcon
        exact hlt ((strLt_iff x y).mpr hcon)
      rcases List.mem_cons.mp hb' with hb' | hb'
      · subst hb'; exact hyx
      · exact h.1 b hb'

theorem sortStrings_fold (l : List String) :
    ∀ acc : List String, acc.Sorted (· ≤ ·) →
      (l.foldl (fun acc x => insertStr x acc) acc).Sorted (· ≤ ·) ∧
      (l.foldl (fun acc x => insertStr x acc) acc).Perm (acc ++ l) := by
  induction l with
  | nil =>
    intro acc h
    rw [List.foldl_nil]
    exact ⟨h, by simp⟩
  | cons x xs ih =>
    intro acc h
    rw [List.foldl_cons]
    have h1 := ih (insertStr x acc) (insertStr_sorted x acc h)
    refine ⟨h1.1, ?_⟩
    have p1 : (insertStr x acc ++ xs).Perm ((x :: acc) ++ xs) :=
      (insertStr_perm x acc).append_right xs
    have p2 : ((x :: acc) ++ xs).Perm (acc ++ x :: xs) := by
      simp only [List.cons_append]
      exact (List.perm_middle).symm
    exact h1.2.trans (p1.trans p2)

theorem sortStrings_sorted (l : List String) :
    (sortStrings l).Sorted (· ≤ ·) :=
  (sortStrings_fold l [] (by simp)).1

theorem sortStrings_perm (l : List String) : (sortStrings l).Perm l := by
  have h := (sortStrings_fold l [] (by simp)).2
  simpa using h

theorem mem_dedupGo : ∀ (f : ℕ) (l : List String), l.length ≤ f →
    ∀ x, x ∈ dedupGo f l ↔ x ∈ l := by
  intro f
  induction f with
  | zero =>
    intro l hl x
    have hl0 : l = [] := List.length_eq_zero.mp (by omega)
    subst hl0
    simp [dedupGo]
  | succ f ih =>
    intro l hl x
    cases l with
    | nil => simp [dedupGo]
    | cons y ys =>
      rw [dedupGo]
      have hlen : (ys.filter (fun z => z ≠ y)).length ≤ f := by
        have := List.length_filter_le (fun z => z ≠ y) ys
        simp at hl
        omega
      rw [List.mem_cons, ih _ hlen x, List.mem_filter]
      constructor
      · rintro (rfl | ⟨hmem, _⟩)
        · simp
        · simp [hmem]
      · intro hmem
        rcases List.mem_cons.mp hmem with rfl | hmem
        · exact Or.inl rfl
        · by_cases hxy : x = y
          · exact Or.inl hxy
          · exact Or.inr ⟨hmem, by simpa using hxy⟩

theorem nodup_dedupGo : ∀ (f : ℕ) (l : List String), l.length ≤ f →
    (dedupGo f l).Nodup := by
  intro f
  induction f with
  | zero =>
    intro l hl
    have hl0 : l = [] := List.length_eq_zero.mp (by omega)
    subst hl0
    simp [dedupGo]
  | succ f ih =>
    intro l hl
    cases l with
    | nil => simp [dedupGo]
    | cons y ys =>
      rw [dedupGo]
      have hlen : (ys.filter (fun z => z ≠ y)).length ≤ f := by
        have := List.length_filter_le (fun z => z ≠ y) ys
        simp at hl
        omega
      rw [List.nodup_cons]
      refine ⟨?_, ih _ hlen⟩
      rw [mem_dedupGo _ _ hlen, List.mem_filter]
      rintro ⟨_, hy⟩
      simp at hy

theorem mem_dedupFirst (l : List String) (x : String) :
    x ∈ dedupFirst l ↔ x ∈ l :=
  mem_dedupGo l.length l le_rfl x

theorem nodup_dedupFirst (l : List String) : (dedupFirst l).Nodup :=
  nodup_dedupGo l.length l le_rfl

/-- **C9.**  The script parser fails softly and normalizes its output:
`null`/non-string input, the empty script, and scripts in which no line
matches the tag pattern all yield `{ lines: [], characters: [] }`; and for
every input the `characters` list is strictly sorted in lexicographic
(alphabetical) order — hence duplicate-free and independent of first-seen
order — contains exactly the speakers of the parsed lines, and every
entry is upper-cased (a fixed point of `toUpperCase`). -/
theorem parseCharacterScript_props :
    (parseCharacterScript none = ⟨[], []⟩) ∧
    (parseCharacterScript (some "") = ⟨[], []⟩) ∧
    (∀ s : String,
      (∀ raw ∈ splitOnChar '\n' s.data, parseLine raw = none) →
        parseCharacterScript (some s) = ⟨[], []⟩) ∧
    (∀ s : Option String,
      (parseCharacterScript s).characters.Sorted (· < ·) ∧
      (∀ c, c ∈ (parseCharacterScript s).characters ↔
        ∃ ln ∈ (parseCharacterScript s).lines, ln.speaker = c) ∧
      (∀ c ∈ (parseCharacterScript s).characters, jsToUpper c = c)) := by
  have hchars : ∀ s : String, s ≠ "" →
      (parseCharacterScript (some s)).characters =
        sortStrings (dedupFirst
          (((splitOnChar '\n' s.data).filterMap parseLine).map
            ScriptLine.speaker)) := by
    intro s hs
    rw [parseCharacterScript, if_neg hs]
  have hlines : ∀ s : String, s ≠ "" →
      (parseCharacterScript (some s)).lines =
        (splitOnChar '\n' s.data).filterMap parseLine := by
    intro s hs
    rw [parseCharacterScript, if_neg hs]
  refine ⟨rfl, rfl, ?_, ?_⟩
  · intro s hnone
    by_cases hs : s = ""
    · subst hs; rfl
    · have h0 : (splitOnChar '\n' s.data).filterMap parseLine = [] :=
        List.filterMap_eq_nil_iff.mpr hnone
      rw [parseCharacterScript, if_neg hs, h0]
      rfl
  · intro so
    have main : ∀ s : String, s ≠ "" →
        (parseCharacterScript (some s)).characters.Sorted (· < ·) ∧
        (∀ c, c ∈ (parseCharacterScript (some s)).characters ↔
          ∃ ln ∈ (parseCharacterScript (some s)).lines, ln.speaker = c) ∧
        (∀ c ∈ (parseCharacterScript (some s)).characters,
          jsToUpper c = c) := by
      intro s hs
      set L := (splitOnChar '\n' s.data).filterMap parseLine with hL
      have hperm := sortStrings_perm (dedupFirst (L.map ScriptLine.speaker))
      have hmem : ∀ c, c ∈ (parseCharacterScript (some s)).characters ↔
          c ∈ L.map ScriptLine.speaker := by
        intro c
        rw [hchars s hs, hperm.mem_iff, mem_dedupFirst]
      refine ⟨?_, ?_, ?_⟩
      · rw [hchars s hs]
        exact List.Sorted.lt_of_le
          (sortStrings_sorted _)
          (hperm.nodup_iff.mpr (nodup_dedupFirst _))
      · intro c
        rw [hmem c, hlines s hs, List.mem_map]
      · intro c hc
        rw [hmem c, List.mem_map] at hc
        obtain ⟨ln, hln, rfl⟩ := hc
        obtain ⟨raw, _, hpl⟩ := List.mem_filterMap.mp hln
        exact (parseLine_speaker raw ln hpl).2
    cases so with
    | none => exact ⟨by simp [parseCharacterScript], by simp [parseCharacterScript], by simp [parseCharacterScript]⟩
    | some s =>
      by_cases hs : s = ""
      · subst hs
        exact ⟨by simp [parseCharacterScript], by simp [parseCharacterScript], by simp [parseCharacterScript]⟩
      · exact main s hs

/-- **C9, witness.**  A script with no matching tag line parses to the
empty record, and a script listing `BOB` before `ALEX` still yields a
sorted character set. -/
theorem parseCharacterScript_props_witness :
    parseCharacterScript (some "no tags here\njust prose") = ⟨[], []⟩ ∧
    (parseCharacterScript
      (some "[BOB]: hi\n[ALEX]: yo")).characters.Sorted (· < ·) :=
  ⟨parseCharacterScript_props.2.2.1 "no tags here\njust prose" (by decide),
    (parseCharacterScript_props.2.2.2
      (some "[BOB]: hi\n[ALEX]: yo")).1⟩

/- ==================== Speaker coverage (C6) ==================== -/

theorem lines_eq (s : String) (hs : s ≠ "") :
    (parseCharacterScript (some s)).lines =
      (splitOnChar '\n' s.data).filterMap parseLine := by
  rw [parseCharacterScript, if_neg hs]

theorem characters_eq (s : String) (hs : s ≠ "") :
    (parseCharacterScript (some s)).characters =
      sortStrings (dedupFirst
        ((parseCharacterScript (some s)).lines.map ScriptLine.speaker)) := by
  rw [parseCharacterScript, if_neg hs]

theorem mem_characters_iff (s : String) (c : String) :
    c ∈ (parseCharacterScript (some s)).characters ↔
      c ∈ (parseCharacterScript (some s)).lines.map ScriptLine.speaker := by
  by_cases hs : s = ""
  · subst hs; simp [parseCharacterScript]
  · rw [characters_eq s hs, (sortStrings_perm _).mem_iff, mem_dedupFirst]

theorem speaker_ne_of_mem_lines (s : String) (ln : ScriptLine)
    (h : ln ∈ (parseCharacterScript (some s)).lines) : ln.speaker ≠ "" := by
  by_cases hs : s = ""
  · subst hs
    simp [parseCharacterScript] at h
  · rw [lines_eq s hs] at h
    obtain ⟨raw, _, hpl⟩ := List.mem_filterMap.mp h
    exact (parseLine_speaker raw ln hpl).1

theorem mem_characters_ne (s : String) (c : String)
    (h : c ∈ (parseCharacterScript (some s)).characters) : c ≠ "" := by
  rw [mem_characters_iff] at h
  obtain ⟨ln, hln, rfl⟩ := List.mem_map.mp h
  exact speaker_ne_of_mem_lines s ln hln

theorem timelineAux_speaker_mem (speakTime totalLen : ℚ) :
    ∀ (lines : List ScriptLine) (last : Option String) (cum : ℚ)
      (e : SpeakerTiming),
        e ∈ timelineAux speakTime totalLen last cum lines →
          e.speaker ∈ lines.map ScriptLine.speaker := by
  intro lines
  induction lines with
  | nil => intro last cum e he; simp [timelineAux] at he
  | cons l rest ih =>
    intro last cum e he
    simp only [timelineAux] at he
    rcases List.mem_cons.mp he with he | he
    · subst he; simp
    · simp only [List.map_cons, List.mem_cons]
      exact Or.inr (ih _ _ e he)

theorem buildScriptTimeline_speaker_mem (lines : List ScriptLine) (D : ℚ)
    (e : SpeakerTiming) (he : e ∈ buildScriptTimeline lines D) :
    e.speaker ∈ lines.map ScriptLine.speaker := by
  rw [buildScriptTimeline] at he
  exact timelineAux_speaker_mem _ _ lines none (1/5) e he

theorem assignFrom_coverage (script : String) (tl : List SpeakerTiming)
    (x : Seg)
    (hchars : (parseCharacterScript (some script)).characters ≠ [])
    (htl : ∀ e ∈ tl, e.speaker ∈ (parseCharacterScript (some script)).characters
      ∨ e.speaker = "") :
    ∃ c, (assignFrom tl (parseCharacterScript (some script)).characters x).speaker
        = some c ∧ c ∈ (parseCharacterScript (some script)).characters := by
  set chars := (parseCharacterScript (some script)).characters with hc
  obtain ⟨c0, rest, hc0⟩ : ∃ c0 rest, chars = c0 :: rest := by
    cases hh : chars with
    | nil => exact absurd hh hchars
    | cons a b => exact ⟨a, b, rfl⟩
  have hc0mem : c0 ∈ chars := by rw [hc0]; simp
  have hc0ne : c0 ≠ "" := mem_characters_ne script c0 (hc ▸ hc0mem)
  have hhead : chars.head? = some c0 := by rw [hc0]; rfl
  rw [assignFrom]
  cases hfind : tl.find? (containsMid ((x.start + x.«end») / 2)) with
  | none =>
    refine ⟨c0, ?_, hc0mem⟩
    simp [hfind, jsOrS, hhead, hc0ne]
  | some tm =>
    have htm := htl tm (List.mem_of_find?_eq_some hfind)
    by_cases hsp : tm.speaker = ""
    · refine ⟨c0, ?_, hc0mem⟩
      simp [hfind, jsOrS, hsp, hhead, hc0ne]
    · rcases htm with htm | htm
      · refine ⟨tm.speaker, ?_, htm⟩
        simp [hfind, jsOrS, hsp]
      · exact absurd htm hsp

/-- **C6 (amended).**  If the parsed character set is non-empty then every
segment returned by `mapSegmentsToSpeakers` carries a non-null speaker
drawn from the parsed characters, on the estimation path unconditionally
and on the authoritative path provided every supplied timing entry's
speaker is itself a parsed character (or empty, in which case the
first-character fallback fires).  Without that proviso the claim fails:
an authoritative entry can install a speaker foreign to the script. -/
theorem mapSegmentsToSpeakers_coverage (segments : List Seg)
    (script : String) (tmsOpt : Option (List SpeakerTiming))
    (hchars : (parseCharacterScript (some script)).characters ≠ [])
    (htm : ∀ tms, tmsOpt = some tms → ∀ tm ∈ tms,
      tm.speaker ∈ (parseCharacterScript (some script)).characters ∨
        tm.speaker = "") :
    ∀ sg ∈ mapSegmentsToSpeakers segments script tmsOpt,
      ∃ c, sg.speaker = some c ∧
        c ∈ (parseCharacterScript (some script)).characters := by
  have hscript : script ≠ "" := by
    intro hcon
    subst hcon
    exact hchars rfl
  have hlines : (parseCharacterScript (some script)).lines ≠ [] := by
    intro hcon
    apply hchars
    rw [characters_eq script hscript, hcon]
    rfl
  by_cases hseg : segments = []
  · subst hseg
    intro sg hsg
    rw [mapSegmentsToSpeakers.eq_def] at hsg
    simp at hsg
  · intro sg hsg
    rw [mapSegmentsToSpeakers.eq_def,
      if_neg (by push_neg; exact ⟨hscript, hseg⟩), if_neg hlines] at hsg
    have hest : ∀ sg ∈ segments.map
        (assignFrom
          (buildScriptTimeline (parseCharacterScript (some script)).lines
            (jsLastEnd segments))
          (parseCharacterScript (some script)).characters),
        ∃ c, sg.speaker = some c ∧
          c ∈ (parseCharacterScript (some script)).characters := by
      intro sg hsg
      obtain ⟨x, _, rfl⟩ := List.mem_map.mp hsg
      refine assignFrom_coverage script _ x hchars ?_
      intro e he
      left
      rw [mem_characters_iff]
      exact buildScriptTimeline_speaker_mem _ _ e he
    cases tmsOpt with
    | none =>
      dsimp only at hsg
      exact hest sg hsg
    | some tms =>
      dsimp only at hsg
      by_cases htms : tms = []
      · subst htms
        rw [if_neg (by simp)] at hsg
        exact hest sg hsg
      · rw [if_pos htms] at hsg
        obtain ⟨x, _, rfl⟩ := List.mem_map.mp hsg
        exact assignFrom_coverage script tms x hchars (htm tms rfl)

/-- **C6, counterexample to the unamended claim.**  An authoritative
timing entry with speaker `ZED`, foreign to the script's only character
`ALEX`, is copied verbatim onto the segment even though `ZED` is not in
the parsed character set. -/
theorem mapSegmentsToSpeakers_coverage_cex :
    (parseCharacterScript (some "[ALEX]: Hello")).characters = ["ALEX"] ∧
    mapSegmentsToSpeakers [⟨0, 2, "hi", none⟩] "[ALEX]: Hello"
      (some [⟨"ZED", 0, 10⟩]) = [⟨0, 2, "hi", some "ZED"⟩] ∧
    "ZED" ∉ (parseCharacterScript (some "[ALEX]: Hello")).characters := by
  refine ⟨by decide, ?_, by decide⟩
  rw [mapSegmentsToSpeakers.eq_def]
  dsimp only
  rw [if_neg (by simp), if_neg (by decide), if_pos (by simp)]
  simp only [List.map_cons, List.map_nil, assignFrom]
  rw [show ([⟨"ZED", 0, 10⟩] : List SpeakerTiming).find?
      (containsMid (((0:ℚ) + 2) / 2)) = some ⟨"ZED", 0, 10⟩ from by
    rw [List.find?_cons_of_pos]
    simp only [containsMid]
    norm_num]
  simp [jsOrS]

/-- **C6, witness.**  The amended coverage theorem applied to a script
whose single timing entry names the parsed character `ALEX`. -/
theorem mapSegmentsToSpeakers_coverage_witness :
    ∃ c, (Seg.mk 0 2 "hi" (some "ALEX")).speaker = some c ∧
      c ∈ (parseCharacterScript (some "[ALEX]: Hello")).characters := by
  have hout : mapSegmentsToSpeakers [⟨0, 2, "hi", none⟩] "[ALEX]: Hello"
      (some [⟨"ALEX", 0, 10⟩]) = [⟨0, 2, "hi", some "ALEX"⟩] := by
    rw [mapSegmentsToSpeakers.eq_def]
    dsimp only
    rw [if_neg (by simp), if_neg (by decide), if_pos (by simp)]
    simp only [List.map_cons, List.map_nil, assignFrom]
    rw [show ([⟨"ALEX", 0, 10⟩] : List SpeakerTiming).find?
        (containsMid (((0:ℚ) + 2) / 2)) = some ⟨"ALEX", 0, 10⟩ from by
      rw [List.find?_cons_of_pos]
      simp only [containsMid]
      norm_num]
    simp [jsOrS]
  have h := mapSegmentsToSpeakers_coverage [⟨0, 2, "hi", none⟩]
    "[ALEX]: Hello" (some [⟨"ALEX", 0, 10⟩]) (by decide) ?_
  · refine h ⟨0, 2, "hi", some "ALEX"⟩ ?_
    rw [hout]
    simp
  · intro tms htms tm htmmem
    cases Option.some_inj.mp htms
    simp only [List.mem_singleton] at htmmem
    subst htmmem
    left
    decide

/- ==================== Normalization idempotence (C3) ==================== -/

/-- A segment list is *clean* when it is what one expects normalization to
produce in the well-behaved case: non-negative, strictly ordered,
non-overlapping segments with trimmed texts of at most 18 words, no
speaker annotation, and no two adjacent segments both below the 0.4 s
coalesce threshold. -/
def CleanSegs (l : List Seg) : Prop :=
  (∀ s ∈ l, 0 ≤ s.start ∧ s.start < s.«end» ∧ jsTrim s.text = s.text ∧
    (splitWords s.text).length ≤ 18 ∧ s.speaker = none) ∧
  List.Chain' (fun u v => u.«end» ≤ v.start) l ∧
  List.Chain' (fun u v =>
    ¬(u.«end» - u.start < 2/5 ∧ v.«end» - v.start < 2/5)) l

theorem coalesceAux_id (xs : List Seg) :
    ∀ c : Seg,
      List.Chain' (fun u v =>
        ¬(u.«end» - u.start < 2/5 ∧ v.«end» - v.start < 2/5)) (c :: xs) →
      coalesceAux (2/5) c xs = c :: xs := by
  induction xs with
  | nil => intro c _; rfl
  | cons s rest ih =>
    intro c hchain
    have h1 := (List.chain'_cons.mp hchain).1
    have h2 := (List.chain'_cons.mp hchain).2
    rw [coalesceAux, if_neg h1, ih s h2]

theorem coalesce_id (l : List Seg)
    (h : List.Chain' (fun u v =>
      ¬(u.«end» - u.start < 2/5 ∧ v.«end» - v.start < 2/5)) l) :
    coalesceSegments l = l := by
  cases l with
  | nil => rfl
  | cons c xs => exact coalesceAux_id xs c h

theorem tighten_id (l : List Seg)
    (h : ∀ s ∈ l, (splitWords s.text).length ≤ 18) :
    tightenSegments l = l := by
  induction l with
  | nil => rfl
  | cons s rest ih =>
    rw [tightenSegments, List.flatMap_cons]
    dsimp only
    rw [if_pos (h s (by simp))]
    have := ih (fun x hx => h x (by simp [hx]))
    rw [tightenSegments] at this
    rw [this]
    rfl

theorem sanitizeSeg_id (s : Seg) (h0 : 0 ≤ s.start) (h1 : 0 ≤ s.«end»)
    (h2 : jsTrim s.text = s.text) (h3 : s.speaker = none) :
    sanitizeSeg s = s := by
  rw [sanitizeSeg]
  cases s with
  | mk st en tx sp =>
    simp only at h0 h1 h2 h3
    simp [max_eq_right h0, max_eq_right h1, h2, h3]

theorem insertByKey_at_end (key : Seg → ℚ) (x : Seg) :
    ∀ acc : List Seg, (∀ y ∈ acc, ¬(key x < key y)) →
      insertByKey key x acc = acc ++ [x] := by
  intro acc
  induction acc with
  | nil => intro _; rfl
  | cons y ys ih =>
    intro h
    rw [insertByKey, if_neg (h y (by simp)), ih (fun z hz => h z (by simp [hz]))]
    rfl

theorem sortByKey_fold_sorted (key : Seg → ℚ) :
    ∀ (l acc : List Seg),
      List.Pairwise (fun u v => key u ≤ key v) (acc ++ l) →
      l.foldl (fun acc x => insertByKey key x acc) acc = acc ++ l := by
  intro l
  induction l with
  | nil => intro acc _; simp
  | cons x xs ih =>
    intro acc h
    rw [List.foldl_cons]
    have hax : ∀ y ∈ acc, key y ≤ key x := by
      intro y hy
      exact (List.pairwise_append.mp h).2.2 y hy x (by simp)
    rw [insertByKey_at_end key x acc (fun y hy => not_lt.mpr (hax y hy))]
    have h' : List.Pairwise (fun u v => key u ≤ key v) ((acc ++ [x]) ++ xs) := by
      rw [List.append_assoc]
      simpa using h
    rw [ih (acc ++ [x]) h']
    simp

theorem sortByKey_eq_self (key : Seg → ℚ) (l : List Seg)
    (h : List.Pairwise (fun u v => key u ≤ key v) l) :
    sortByKey key l = l := by
  rw [sortByKey]
  have := sortByKey_fold_sorted key l [] (by simpa using h)
  simpa using this

theorem deoverlapAux_id (l : List Seg) :
    ∀ e : ℚ,
      List.Chain' (fun u v => u.«end» ≤ v.start) l →
      (∀ x ∈ l.head?, e ≤ x.start) →
      deoverlapAux e l = l := by
  induction l with
  | nil => intro e _ _; rfl
  | cons s rest ih =>
    intro e hchain hhead
    have he : e ≤ s.start := hhead s (by simp)
    rw [deoverlapAux]
    have hs' : (if s.start < e then { s with start := e } else s) = s := by
      rw [if_neg (not_lt.mpr he)]
    rw [hs']
    rw [ih s.«end» (List.chain'_cons'.mp hchain).2
      (List.chain'_cons'.mp hchain).1]

theorem deoverlap_id (l : List Seg)
    (h : List.Chain' (fun u v => u.«end» ≤ v.start) l) :
    deoverlap l = l := by
  cases l with
  | nil => rfl
  | cons s rest =>
    rw [deoverlap]
    rw [deoverlapAux_id rest s.«end» (List.chain'_cons'.mp h).2
      (List.chain'_cons'.mp h).1]

theorem mapLast_eq_self (f : Seg → Seg) :
    ∀ l : List Seg, (∀ x, l.getLast? = some x → f x = x) →
      mapLast f l = l := by
  intro l
  induction l with
  | nil => intro _; rfl
  | cons s rest ih =>
    intro h
    cases rest with
    | nil =>
      rw [mapLast, h s rfl]
    | cons a t =>
      show s :: mapLast f (a :: t) = s :: a :: t
      rw [ih (fun x hx => h x (by rw [List.getLast?_cons_cons]; exact hx))]

theorem extendTail_none_id (l : List Seg)
    (h : ∀ x, l.getLast? = some x → 0 < x.«end») :
    extendTail none l = l := by
  rw [extendTail]
  cases hl : l.getLast? with
  | none => rfl
  | some last =>
    dsimp only
    rw [if_pos (h last hl)]
    apply mapLast_eq_self
    intro x hx
    rw [hl] at hx
    cases Option.some_inj.mp hx
    simp

theorem chain_start_le (l : List Seg)
    (hchain : List.Chain' (fun u v => u.«end» ≤ v.start) l)
    (hwf : ∀ s ∈ l, s.start ≤ s.«end») :
    List.Pairwise (fun u v => u.start ≤ v.start) l := by
  induction l with
  | nil => simp
  | cons s rest ih =>
    rw [List.pairwise_cons]
    have hch' := List.chain'_cons'.mp hchain
    have ihp := ih hch'.2 (fun x hx => hwf x (List.mem_cons_of_mem s hx))
    refine ⟨?_, ihp⟩
    intro y hy
    cases rest with
    | nil => simp at hy
    | cons a t =>
      have hsa : s.«end» ≤ a.start := hch'.1 a rfl
      have hs : s.start ≤ s.«end» := hwf s (by simp)
      rcases List.mem_cons.mp hy with rfl | hy'
      · linarith
      · have hay : a.start ≤ y.start := (List.pairwise_cons.mp ihp).1 y hy'
        linarith

/-- **C3 (amended).**  Normalization is the identity on already-clean
segment lists (`CleanSegs`): re-running `normalizeSegments` (with no
duration hint) on such a list is a no-op.  Unrestricted idempotence fails:
see `normalizeSegments_not_idempotent`. -/
theorem normalizeSegments_clean_fixed (l : List Seg) (h : CleanSegs l) :
    normalizeSegments l none = l := by
  obtain ⟨hwf, hchain, hshort⟩ := h
  show extendTail none (deoverlap (sortByKey Seg.start
    (((tightenSegments (coalesceSegments l)).map sanitizeSeg).filter
      (fun s => s.start < s.«end»)))) = l
  rw [coalesce_id l hshort]
  rw [tighten_id l (fun s hs => (hwf s hs).2.2.2.1)]
  have hmap : l.map sanitizeSeg = l := by
    rw [List.map_congr_left (fun s hs => sanitizeSeg_id s (hwf s hs).1
      (le_of_lt (lt_of_le_of_lt (hwf s hs).1 (hwf s hs).2.1))
      (hwf s hs).2.2.1 (hwf s hs).2.2.2.2)]
    exact List.map_id l
  rw [hmap]
  rw [List.filter_eq_self.mpr (fun s hs => by
    simpa using (hwf s hs).2.1)]
  rw [sortByKey_eq_self Seg.start l
    (chain_start_le l hchain (fun s hs => le_of_lt (hwf s hs).2.1))]
  rw [deoverlap_id l hchain]
  apply extendTail_none_id
  intro x hx
  have hxl : x ∈ l := List.mem_of_getLast?_eq_some hx
  have := hwf x hxl
  linarith [this.1, this.2.1]

/-- **C3, counterexample to the unamended claim.**  On the overlapping
input `[(0,5,"a"), (1,2,"b")]` the de-overlap step produces the degenerate
segment `(5,2,"b")`, which the second normalization pass drops, so
`normalize (normalize x) ≠ normalize x`. -/
theorem normalizeSegments_not_idempotent :
    normalizeSegments
        (normalizeSegments [⟨0, 5, "a", none⟩, ⟨1, 2, "b", none⟩] none)
        none ≠
      normalizeSegments [⟨0, 5, "a", none⟩, ⟨1, 2, "b", none⟩] none := by
  have h1 : normalizeSegments [⟨0, 5, "a", none⟩, ⟨1, 2, "b", none⟩] none =
      [⟨0, 5, "a", none⟩, ⟨5, 2, "b", none⟩] := by
    repeat
      first
      | rfl
      | norm_num [normalizeSegments, coalesceSegments, coalesceAux,
          tightenSegments, splitWords, wsRuns, wsRunsAux, isWs, sanitizeSeg,
          jsTrim, trimChars, sortByKey, insertByKey, deoverlap, deoverlapAux,
          extendTail, mapLast, Char.reduceEq]
  have h2 : normalizeSegments [⟨0, 5, "a", none⟩, ⟨5, 2, "b", none⟩] none =
      [⟨0, 5, "a", none⟩] := by
    repeat
      first
      | rfl
      | norm_num [normalizeSegments, coalesceSegments, coalesceAux,
          tightenSegments, splitWords, wsRuns, wsRunsAux, isWs, sanitizeSeg,
          jsTrim, trimChars, sortByKey, insertByKey, deoverlap, deoverlapAux,
          extendTail, mapLast, Char.reduceEq]
  rw [h1, h2]
  simp

/-- **C3, witness.**  The amended theorem applied to a concrete clean
list: normalization leaves `[(0,1,"hi"), (2,3,"yo")]` unchanged. -/
theorem normalizeSegments_clean_fixed_witness :
    normalizeSegments [⟨0, 1, "hi", none⟩, ⟨2, 3, "yo", none⟩] none =
      [⟨0, 1, "hi", none⟩, ⟨2, 3, "yo", none⟩] := by
  apply normalizeSegments_clean_fixed
  refine ⟨?_, ?_, ?_⟩
  · intro s hs
    rcases List.mem_cons.mp hs with rfl | hs
    · refine ⟨by norm_num, by norm_num, by decide, by decide, rfl⟩
    · rcases List.mem_cons.mp hs with rfl | hs
      · refine ⟨by norm_num, by norm_num, by decide, by decide, rfl⟩
      · simp at hs
  · refine List.chain'_cons.mpr ⟨by norm_num, List.chain'_singleton _⟩
  · refine List.chain'_cons.mpr ⟨by norm_num, List.chain'_singleton _⟩

/- ==================== Caption layout engine (C8) ==================== -/

theorem searchGo_ok (ok : ℤ → Bool) :
    ∀ (fuel : ℕ) (lo hi best : ℤ), ok best = true →
      ok (searchGo ok fuel lo hi best) = true := by
  intro fuel
  induction fuel with
  | zero => intro lo hi best h; exact h
  | succ f ih =>
    intro lo hi best h
    rw [searchGo]
    by_cases hlh : lo ≤ hi
    · rw [if_pos hlh]
      dsimp only
      by_cases hok : ok ((lo + hi) / 2)
      · rw [if_pos hok]
        exact ih _ _ _ hok
      · rw [if_neg hok]
        exact ih _ _ _ h
    · rw [if_neg hlh]
      exact h

theorem searchGo_bounds (ok : ℤ → Bool) :
    ∀ (fuel : ℕ) (lo hi best : ℤ), 56 ≤ best → best ≤ 220 → 56 ≤ lo →
      hi ≤ 220 →
      56 ≤ searchGo ok fuel lo hi best ∧ searchGo ok fuel lo hi best ≤ 220 := by
  intro fuel
  induction fuel with
  | zero => intro lo hi best h1 h2 _ _; exact ⟨h1, h2⟩
  | succ f ih =>
    intro lo hi best h1 h2 h3 h4
    rw [searchGo]
    by_cases hlh : lo ≤ hi
    · rw [if_pos hlh]
      dsimp only
      by_cases hok : ok ((lo + hi) / 2)
      · rw [if_pos hok]
        exact ih _ _ _ (by omega) (by omega) (by omega) h4
      · rw [if_neg hok]
        exact ih _ _ _ h1 h2 h3 (by omega)
    · rw [if_neg hlh]
      exact ⟨h1, h2⟩

theorem sizeFor_props (measureAt : ℤ → String → ℚ) (boxW boxH : ℚ)
    (text : String) (hbase : okFit measureAt boxW boxH 56 text = true) :
    okFit measureAt boxW boxH (sizeFor measureAt boxW boxH text) text = true ∧
      56 ≤ sizeFor measureAt boxW boxH text ∧
      sizeFor measureAt boxW boxH text ≤ 220 := by
  rw [sizeFor]
  constructor
  · have h := searchGo_ok (fun mid => okFit measureAt boxW boxH mid text)
      200 56 220 56 hbase
    simpa using h
  · exact searchGo_bounds _ 200 56 220 56 (by norm_num) (by norm_num)
      (by norm_num) (by norm_num)

theorem foldl_min_le (L : List ℤ) :
    ∀ a : ℤ, L.foldl min a ≤ a ∧ ∀ x ∈ L, L.foldl min a ≤ x := by
  induction L with
  | nil => intro a; simp
  | cons y ys ih =>
    intro a
    rw [List.foldl_cons]
    have h := ih (min a y)
    refine ⟨le_trans h.1 (min_le_left a y), ?_⟩
    intro x hx
    rcases List.mem_cons.mp hx with rfl | hx
    · exact le_trans h.1 (min_le_right a x)
    · exact h.2 x hx

theorem foldl_min_mem (L : List ℤ) :
    ∀ a : ℤ, L.foldl min a = a ∨ L.foldl min a ∈ L := by
  induction L with
  | nil => intro a; simp
  | cons y ys ih =>
    intro a
    rw [List.foldl_cons]
    rcases ih (min a y) with h | h
    · rcases min_cases a y with ⟨he, _⟩ | ⟨he, _⟩
      · left; rw [h, he]
      · right; rw [h, he]; simp
    · right; simp [h]

theorem textsOf_ne_nil (segs : List Seg) (fallbackText : String) :
    textsOf segs fallbackText ≠ [] := by
  rw [textsOf]
  by_cases h : (segs.map (fun s => jsTrim s.text)).filter (fun t => t ≠ "") = []
  · rw [if_pos h]; simp
  · rw [if_neg h]; exact h

/-- **C8 (amended).**  Provided the fit predicate is antitone in the font
size (true of real text measurement, which grows with the font) and every
text fits at the minimum size 56, the chosen uniform size is exactly the
minimum of the per-text maximal sizes and every text of the segment set
wraps at the chosen size into at most `MAX_LINES` lines with block height
`(lines-1)*lineHeight` inside the caption box.  Without the "fits at 56"
proviso the claim fails: see the counterexample, where a text that fits at
no probed size is reported with the never-verified default size 56 and
overflows the line limit. -/
theorem computeUniformCaptionMetrics_fit (measureAt : ℤ → String → ℚ)
    (segs : List Seg) (fallbackText : String) (boxW boxH : ℚ)
    (hmono : ∀ t u v, 56 ≤ u → u ≤ v →
      okFit measureAt boxW boxH v t = true →
      okFit measureAt boxW boxH u t = true)
    (hbase : ∀ t ∈ textsOf segs fallbackText,
      okFit measureAt boxW boxH 56 t = true) :
    (∀ t ∈ textsOf segs fallbackText,
      (computeUniformCaptionMetrics measureAt segs fallbackText boxW
        boxH).size ≤ sizeFor measureAt boxW boxH t) ∧
    (∃ t ∈ textsOf segs fallbackText,
      (computeUniformCaptionMetrics measureAt segs fallbackText boxW
        boxH).size = sizeFor measureAt boxW boxH t) ∧
    (∀ t ∈ textsOf segs fallbackText,
      okFit measureAt boxW boxH
        (computeUniformCaptionMetrics measureAt segs fallbackText boxW
          boxH).size t = true) := by
  set L := textsOf segs fallbackText with hL
  have hsize : (computeUniformCaptionMetrics measureAt segs fallbackText
      boxW boxH).size = (L.map (sizeFor measureAt boxW boxH)).foldl min 220 := by
    rw [computeUniformCaptionMetrics]
    dsimp only
    rw [List.foldl_map]
  have hle : ∀ t ∈ L,
      (computeUniformCaptionMetrics measureAt segs fallbackText boxW
        boxH).size ≤ sizeFor measureAt boxW boxH t := by
    intro t ht
    rw [hsize]
    exact (foldl_min_le _ 220).2 _ (List.mem_map_of_mem _ ht)
  have hex : ∃ t ∈ L,
      (computeUniformCaptionMetrics measureAt segs fallbackText boxW
        boxH).size = sizeFor measureAt boxW boxH t := by
    rcases foldl_min_mem (L.map (sizeFor measureAt boxW boxH)) 220 with h | h
    · obtain ⟨t0, ht0⟩ : ∃ t0, t0 ∈ L := by
        cases hc : L with
        | nil => exact absurd hc (hL ▸ textsOf_ne_nil segs fallbackText)
        | cons a b => exact ⟨a, by simp [hc]⟩
      refine ⟨t0, ht0, ?_⟩
      have h1 := hle t0 ht0
      have h2 := (sizeFor_props measureAt boxW boxH t0 (hbase t0 ht0)).2.2
      rw [hsize, h]
      rw [hsize, h] at h1
      omega
    · obtain ⟨t, ht, hts⟩ := List.mem_map.mp h
      exact ⟨t, ht, by rw [hsize, hts]⟩
  refine ⟨hle, hex, ?_⟩
  intro t ht
  obtain ⟨t', ht', hts'⟩ := hex
  have h56 : 56 ≤ (computeUniformCaptionMetrics measureAt segs fallbackText
      boxW boxH).size := by
    rw [hts']
    exact (sizeFor_props measureAt boxW boxH t' (hbase t' ht')).2.1
  exact hmono t _ _ h56 (hle t ht)
    (sizeFor_props measureAt boxW boxH t (hbase t ht)).1

theorem searchGo_all_false (ok : ℤ → Bool)
    (hok : ∀ m : ℤ, 56 ≤ m → ok m = false) :
    ∀ (fuel : ℕ) (lo hi best : ℤ), 56 ≤ lo →
      searchGo ok fuel lo hi best = best := by
  intro fuel
  induction fuel with
  | zero => intro lo hi best _; rfl
  | succ f ih =>
    intro lo hi best hlo
    rw [searchGo]
    by_cases hlh : lo ≤ hi
    · rw [if_pos hlh]
      dsimp only
      rw [hok ((lo + hi) / 2) (by omega), if_neg (by simp)]
      exact ih lo _ best hlo
    · rw [if_neg hlh]

theorem cex_wrap (m : ℤ) (hm : 56 ≤ m) :
    wrapCaption (fun s => (m * s.data.length * 100 : ℚ)) "a b c d"
      (1080 * (47/50)) = ["a", "b", "c", "d"] := by
  have hwords : (((splitOnChar ' ' ("a b c d").data).map String.mk).filter
      (fun w => w ≠ "")) = ["a", "b", "c", "d"] := by decide
  have hmq : (56 : ℚ) ≤ (m : ℤ) := by exact_mod_cast hm
  have hbig : ∀ s : String, 3 ≤ s.data.length →
      (1080 * (47/50) : ℚ) < (m * s.data.length * 100 : ℚ) := by
    intro s hs
    have h3 : (3 : ℚ) ≤ (s.data.length : ℕ) := by exact_mod_cast hs
    nlinarith
  rw [wrapCaption, hwords]
  rw [wrapCaptionAux]
  rw [if_pos (Or.inr rfl)]
  rw [if_pos rfl]
  rw [wrapCaptionAux]
  rw [if_neg (by decide : ¬("a" : String) = "")]
  rw [if_neg (by push_neg; exact ⟨hbig ("a" ++ " " ++ "b") (by decide), by decide⟩)]
  rw [wrapCaptionAux]
  rw [if_neg (by decide : ¬("b" : String) = "")]
  rw [if_neg (by push_neg; exact ⟨hbig ("b" ++ " " ++ "c") (by decide), by decide⟩)]
  rw [wrapCaptionAux]
  rw [if_neg (by decide : ¬("c" : String) = "")]
  rw [if_neg (by push_neg; exact ⟨hbig ("c" ++ " " ++ "d") (by decide), by decide⟩)]
  rw [wrapCaptionAux]
  rw [if_neg (by decide : ¬("d" : String) = "")]

theorem cex_okFit_false (m : ℤ) (hm : 56 ≤ m) :
    okFit (fun m s => (m * s.data.length * 100 : ℚ)) 1080 624 m
      "a b c d" = false := by
  rw [okFit]
  rw [cex_wrap m hm]
  simp [MAX_LINES]

/-- **C8, counterexample to the unamended claim.**  With a measurement in
which every word overflows the wrap width at every probed size, the binary
search never verifies any size, `sizeFor` falls back to the never-checked
default 56, and wrapping at the chosen uniform size 56 produces 4 lines —
more than `MAX_LINES = 3`. -/
theorem computeUniformCaptionMetrics_cex :
    (computeUniformCaptionMetrics (fun m s => (m * s.data.length * 100 : ℚ))
        [⟨0, 1, "a b c d", none⟩] "" 1080 624).size = 56 ∧
    (wrapCaption (fun s => ((56 : ℤ) * s.data.length * 100 : ℚ)) "a b c d"
        (1080 * (47/50))).length = 4 ∧
    ¬((4 : ℕ) ≤ MAX_LINES) := by
  refine ⟨?_, ?_, by decide⟩
  · have htexts : textsOf [⟨0, 1, "a b c d", none⟩] "" = ["a b c d"] := by
      decide
    rw [computeUniformCaptionMetrics]
    dsimp only
    rw [htexts]
    rw [List.foldl_cons, List.foldl_nil]
    rw [sizeFor]
    rw [searchGo_all_false _ (fun m hm => cex_okFit_false m hm) 200 56 220 56
      (by norm_num)]
    norm_num
  · rw [cex_wrap 56 (by norm_num)]
    rfl

/-- **C8, witness.**  The amended layout theorem applied to the constant
zero measurement (everything fits at every size): the text of the single
segment wraps at the chosen uniform size within the line and height
limits. -/
theorem computeUniformCaptionMetrics_fit_witness :
    okFit (fun _ _ => (0 : ℚ)) 1080 624
      (computeUniformCaptionMetrics (fun _ _ => (0 : ℚ))
        [⟨0, 1, "hi", none⟩] "" 1080 624).size "hi" = true := by
  have hzlen : ∀ (maxW : ℚ), 0 ≤ maxW → ∀ (ws : List String) (cur : String),
      (wrapCaptionAux (fun _ => (0 : ℚ)) maxW cur ws).length ≤ 1 := by
    intro maxW hw ws
    induction ws with
    | nil =>
      intro cur
      rw [wrapCaptionAux]
      by_cases hc : cur = "" <;> simp [hc]
    | cons w rest ih =>
      intro cur
      rw [wrapCaptionAux, if_pos (Or.inl hw)]
      exact ih _
  have hokz : ∀ m : ℤ, 0 ≤ m → ∀ t : String,
      okFit (fun _ _ => (0 : ℚ)) 1080 624 m t = true := by
    intro m hm t
    rw [okFit]
    have hlen := hzlen (1080 * (47/50)) (by norm_num)
      (((splitOnChar ' ' t.data).map String.mk).filter (fun w => w ≠ "")) ""
    rw [wrapCaption]
    set lines := wrapCaptionAux (fun _ => (0 : ℚ)) (1080 * (47/50)) ""
      (((splitOnChar ' ' t.data).map String.mk).filter (fun w => w ≠ ""))
      with hlines
    have hlh : (0 : ℤ) ≤ jround ((m : ℚ) * (57/50)) := by
      rw [jround]
      rw [Int.le_floor]
      have : (0 : ℚ) ≤ (m : ℚ) := by exact_mod_cast hm
      push_cast
      nlinarith
    have h1 : (lines.length : ℤ) - 1 ≤ 0 := by omega
    have hprod : ((lines.length : ℤ) - 1) * jround ((m : ℚ) * (57/50)) ≤ 0 :=
      mul_nonpos_of_nonpos_of_nonneg h1 hlh
    rw [decide_eq_true_eq]
    constructor
    · rw [MAX_LINES]; omega
    · have hc : (((((lines.length : ℤ) - 1) *
          jround ((m : ℚ) * (57/50))) : ℤ) : ℚ) ≤ 0 := by
        exact_mod_cast hprod
      push_cast at hc
      push_cast
      linarith
  have h := computeUniformCaptionMetrics_fit (fun _ _ => (0 : ℚ))
    [⟨0, 1, "hi", none⟩] "" 1080 624
    (fun t u v hu _ _ => hokz u (by omega) t)
    (fun t _ => hokz 56 (by norm_num) t)
  refine h.2.2 "hi" ?_
  rw [show textsOf [⟨0, 1, "hi", none⟩] "" = ["hi"] from by decide]
  simp

/- ==================== Gap preservation (C2) ==================== -/

theorem getLast?_cons_of_ne_nil {α : Type} (a : α) (l : List α) (h : l ≠ []) :
    (a :: l).getLast? = l.getLast? := by
  cases l with
  | nil => exact absurd rfl h
  | cons b t => rw [List.getLast?_cons_cons]

theorem coalesceAux_post (l2 : List Seg) :
    ∀ c : Seg,
      List.Chain' (fun u v => u.«end» ≤ v.start) (c :: l2) →
      (∀ s ∈ c :: l2, 0 ≤ s.start ∧ s.start < s.«end») →
      coalesceAux (2/5) c l2 ≠ [] ∧
      (∀ s ∈ coalesceAux (2/5) c l2,
        c.start ≤ s.start ∧ 0 ≤ s.start ∧ s.start < s.«end») ∧
      (∀ h ∈ (coalesceAux (2/5) c l2).head?,
        h.start = c.start ∧ c.«end» ≤ h.«end») ∧
      List.Chain' (fun u v => u.«end» ≤ v.start) (coalesceAux (2/5) c l2) := by
  induction l2 with
  | nil =>
    intro c _ hwf
    refine ⟨by simp [coalesceAux], ?_, ?_, by simp [coalesceAux]⟩
    · intro s hs
      simp only [coalesceAux, List.mem_singleton] at hs
      subst hs
      exact ⟨le_refl _, hwf s (by simp)⟩
    · intro h hh
      simp only [coalesceAux, List.head?_cons, Option.mem_def,
        Option.some_inj] at hh
      subst hh
      exact ⟨rfl, le_refl _⟩
  | cons s rest ih =>
    intro c hchain hwf
    have hcs : c.«end» ≤ s.start := (List.chain'_cons.mp hchain).1
    have hcwf := hwf c (by simp)
    have hswf := hwf s (by simp)
    rw [coalesceAux]
    by_cases hmerge :
        c.«end» - c.start < 2/5 ∧ s.«end» - s.start < 2/5
    · rw [if_pos hmerge]
      set c' : Seg := ({ c with text := jsTrim (c.text ++ " " ++ s.text), «end» := s.«end» } : Seg) with hc'
      have hchain' : List.Chain'
          (fun u v => u.«end» ≤ v.start) (c' :: rest) := by
        rw [List.chain'_cons']
        refine ⟨?_, ((List.chain'_cons.mp hchain).2).tail⟩
        intro y hy
        exact (List.chain'_cons'.mp (List.chain'_cons.mp hchain).2).1 y hy
      have hwf' : ∀ x ∈ c' :: rest, 0 ≤ x.start ∧ x.start < x.«end» := by
        intro x hx
        rcases List.mem_cons.mp hx with rfl | hx
        · refine ⟨hcwf.1, ?_⟩
          show c.start < s.«end»
          linarith [hcwf.2, hswf.2]
        · exact hwf x (by simp [hx])
      have hres := ih c' hchain' hwf'
      refine ⟨hres.1, ?_, ?_, hres.2.2.2⟩
      · intro x hx
        exact hres.2.1 x hx
      · intro h hh
        have hh2 := hres.2.2.1 h hh
        refine ⟨hh2.1, ?_⟩
        have h3 : s.«end» ≤ h.«end» := hh2.2
        linarith
    · rw [if_neg hmerge]
      have hrest := ih s ((List.chain'_cons.mp hchain).2)
        (fun x hx => hwf x (by simp [hx]))
      refine ⟨by simp, ?_, ?_, ?_⟩
      · intro x hx
        rcases List.mem_cons.mp hx with rfl | hx
        · exact ⟨le_refl _, hcwf⟩
        · have h4 := hrest.2.1 x hx
          exact ⟨by linarith [h4.1, hcwf.2, hcs], h4.2⟩
      · intro h hh
        simp only [List.head?_cons, Option.mem_def, Option.some_inj] at hh
        subst hh
        exact ⟨rfl, le_refl _⟩
      · rw [List.chain'_cons']
        refine ⟨?_, hrest.2.2.2⟩
        intro y hy
        have h5 := hrest.2.2.1 y hy
        rw [h5.1]
        exact hcs

theorem coalesceAux_gap (a b : Seg) (l2 : List Seg)
    (hlong : 2/5 ≤ a.«end» - a.start ∨ 2/5 ≤ b.«end» - b.start) :
    ∀ (mid : List Seg) (c : Seg),
      List.Chain' (fun u v => u.«end» ≤ v.start) (c :: (mid ++ b :: l2)) →
      (∀ s ∈ c :: (mid ++ b :: l2), 0 ≤ s.start ∧ s.start < s.«end») →
      (∀ x, (c :: mid).getLast? = some x →
        x.«end» = a.«end» ∧ x.start ≤ a.start) →
      ∃ A B,
        coalesceAux (2/5) c (mid ++ b :: l2) = A ++ B ∧
        A ≠ [] ∧
        (∀ x ∈ A, c.start ≤ x.start ∧ 0 ≤ x.start ∧ x.start < x.«end») ∧
        (∀ x, A.getLast? = some x → x.«end» = a.«end») ∧
        B ≠ [] ∧
        (∀ h ∈ B.head?, h.start = b.start) ∧
        (∀ x ∈ B, 0 ≤ x.start ∧ x.start < x.«end») ∧
        List.Chain' (fun u v => u.«end» ≤ v.start) (A ++ B) := by
  intro mid
  induction mid with
  | nil =>
    intro c hchain hwf hinv
    have hca : c.«end» = a.«end» ∧ c.start ≤ a.start := hinv c (by simp)
    have hcb : c.«end» ≤ b.start := (List.chain'_cons.mp hchain).1
    have hcwf := hwf c (by simp)
    have hnm : ¬(c.«end» - c.start < 2/5 ∧ b.«end» - b.start < 2/5) := by
      intro hcon
      rcases hlong with h | h
      · linarith [hca.1, hca.2, hcon.1]
      · linarith [hcon.2]
    have hpost := coalesceAux_post l2 b (List.chain'_cons.mp hchain).2
      (fun x hx => hwf x (by simp [hx]))
    refine ⟨[c], coalesceAux (2/5) b l2, ?_, by simp, ?_, ?_, hpost.1,
      ?_, ?_, ?_⟩
    · show coalesceAux (2/5) c (b :: l2) = c :: coalesceAux (2/5) b l2
      rw [coalesceAux, if_neg hnm]
    · intro x hx
      simp only [List.mem_singleton] at hx
      subst hx
      exact ⟨le_refl _, hcwf⟩
    · intro x hx
      simp only [List.getLast?_singleton, Option.some_inj] at hx
      subst hx
      exact hca.1
    · intro h hh
      exact (hpost.2.2.1 h hh).1
    · intro x hx
      exact (hpost.2.1 x hx).2
    · show List.Chain' (fun u v => u.«end» ≤ v.start)
        (c :: coalesceAux (2/5) b l2)
      rw [List.chain'_cons']
      refine ⟨?_, hpost.2.2.2⟩
      intro y hy
      rw [(hpost.2.2.1 y hy).1]
      exact hcb
  | cons m mid' ih =>
    intro c hchain hwf hinv
    have hcm : c.«end» ≤ m.start := (List.chain'_cons.mp hchain).1
    have hcwf := hwf c (by simp)
    have hmwf := hwf m (by simp)
    by_cases hmerge : c.«end» - c.start < 2/5 ∧ m.«end» - m.start < 2/5
    · set c' : Seg := ({ c with text := jsTrim (c.text ++ " " ++ m.text), «end» := m.«end» } : Seg) with hc'
      have hchain' : List.Chain' (fun u v => u.«end» ≤ v.start)
          (c' :: (mid' ++ b :: l2)) := by
        rw [List.chain'_cons']
        refine ⟨?_, ((List.chain'_cons.mp hchain).2).tail⟩
        intro y hy
        exact (List.chain'_cons'.mp (List.chain'_cons.mp hchain).2).1 y hy
      have hwf' : ∀ x ∈ c' :: (mid' ++ b :: l2),
          0 ≤ x.start ∧ x.start < x.«end» := by
        intro x hx
        rcases List.mem_cons.mp hx with rfl | hx
        · refine ⟨hcwf.1, ?_⟩
          show c.start < m.«end»
          linarith [hcwf.2, hmwf.2]
        · exact hwf x (by simp [hx])
      have hinv' : ∀ x, (c' :: mid').getLast? = some x →
          x.«end» = a.«end» ∧ x.start ≤ a.start := by
        intro x hx
        cases mid' with
        | nil =>
          simp only [List.getLast?_singleton, Option.some_inj] at hx
          have hma := hinv m
            (by rw [List.getLast?_cons_cons, List.getLast?_singleton])
          subst hx
          constructor
          · show m.«end» = a.«end»
            exact hma.1
          · show c.start ≤ a.start
            linarith [hcwf.2, hcm, hma.2]
        | cons m2 mid'' =>
          rw [List.getLast?_cons_cons] at hx
          exact hinv x
            (by rw [List.getLast?_cons_cons, List.getLast?_cons_cons]
                exact hx)
      obtain ⟨A, B, heq, hAne, hAmem, hAlast, hBne, hBhead, hBwf, hchAB⟩ :=
        ih c' hchain' hwf' hinv'
      refine ⟨A, B, ?_, hAne, ?_, hAlast, hBne, hBhead, hBwf, hchAB⟩
      · show coalesceAux (2/5) c (m :: (mid' ++ b :: l2)) = A ++ B
        rw [coalesceAux, if_pos hmerge]
        exact heq
      · intro x hx
        exact hAmem x hx
    · obtain ⟨A, B, heq, hAne, hAmem, hAlast, hBne, hBhead, hBwf, hchAB⟩ :=
        ih m (List.chain'_cons.mp hchain).2
          (fun x hx => hwf x (by simp [hx]))
          (fun x hx => hinv x (by rw [List.getLast?_cons_cons]; exact hx))
      obtain ⟨y, ys, hA⟩ : ∃ y ys, A = y :: ys := by
        cases A with
        | nil => exact absurd rfl hAne
        | cons y ys => exact ⟨y, ys, rfl⟩
      refine ⟨c :: A, B, ?_, by simp, ?_, ?_, hBne, hBhead, hBwf, ?_⟩
      · show coalesceAux (2/5) c (m :: (mid' ++ b :: l2)) = (c :: A) ++ B
        rw [coalesceAux, if_neg hmerge, heq]
        rfl
      · intro x hx
        rcases List.mem_cons.mp hx with rfl | hx
        · exact ⟨le_refl _, hcwf⟩
        · have h6 := hAmem x hx
          exact ⟨by linarith [h6.1, hcwf.2, hcm], h6.2⟩
      · intro x hx
        rw [getLast?_cons_of_ne_nil c A hAne] at hx
        exact hAlast x hx
      · subst hA
        rw [List.cons_append, List.chain'_cons']
        refine ⟨?_, hchAB⟩
        intro z hz
        rw [List.cons_append, List.head?_cons] at hz
        simp only [Option.mem_def, Option.some_inj] at hz
        subst hz
        have h7 := (hAmem y (List.mem_cons_self y ys)).1
        linarith [hcm, h7]

theorem coalesce_gap (l1 l2 : List Seg) (a b : Seg)
    (hchain : List.Chain' (fun u v => u.«end» ≤ v.start)
      (l1 ++ a :: b :: l2))
    (hwf : ∀ s ∈ l1 ++ a :: b :: l2, 0 ≤ s.start ∧ s.start < s.«end»)
    (hlong : 2/5 ≤ a.«end» - a.start ∨ 2/5 ≤ b.«end» - b.start) :
    ∃ A B,
      coalesceSegments (l1 ++ a :: b :: l2) = A ++ B ∧
      A ≠ [] ∧
      (∀ x ∈ A, 0 ≤ x.start ∧ x.start < x.«end») ∧
      (∀ x, A.getLast? = some x → x.«end» = a.«end») ∧
      B ≠ [] ∧
      (∀ h ∈ B.head?, h.start = b.start) ∧
      (∀ x ∈ B, 0 ≤ x.start ∧ x.start < x.«end») ∧
      List.Chain' (fun u v => u.«end» ≤ v.start) (A ++ B) := by
  cases l1 with
  | nil =>
    obtain ⟨A, B, heq, hAne, hAmem, hAlast, hBne, hBhead, hBwf, hch⟩ :=
      coalesceAux_gap a b l2 hlong [] a hchain hwf
        (by intro x hx
            simp only [List.getLast?_singleton, Option.some_inj] at hx
            subst hx
            exact ⟨rfl, le_refl _⟩)
    exact ⟨A, B, heq, hAne, fun x hx => (hAmem x hx).2, hAlast, hBne,
      hBhead, hBwf, hch⟩
  | cons c l1' =>
    have hl : (l1' ++ [a]) ++ b :: l2 = l1' ++ a :: b :: l2 := by
      rw [List.append_assoc]
      rfl
    have hch2 : List.Chain' (fun u v => u.«end» ≤ v.start)
        (c :: ((l1' ++ [a]) ++ b :: l2)) := by
      rw [hl]; exact hchain
    have hwf2 : ∀ s ∈ c :: ((l1' ++ [a]) ++ b :: l2),
        0 ≤ s.start ∧ s.start < s.«end» := by
      rw [hl]; exact hwf
    have hinv2 : ∀ x, (c :: (l1' ++ [a])).getLast? = some x →
        x.«end» = a.«end» ∧ x.start ≤ a.start := by
      intro x hx
      rw [← List.cons_append, List.getLast?_append] at hx
      simp only [List.getLast?_singleton] at hx
      simp only [Option.or, Option.some_inj] at hx
      subst hx
      exact ⟨rfl, le_refl _⟩
    obtain ⟨A, B, heq, hAne, hAmem, hAlast, hBne, hBhead, hBwf, hch⟩ :=
      coalesceAux_gap a b l2 hlong (l1' ++ [a]) c hch2 hwf2 hinv2
    refine ⟨A, B, ?_, hAne, fun x hx => (hAmem x hx).2, hAlast, hBne,
      hBhead, hBwf, hch⟩
    have hr : (c :: l1') ++ a :: b :: l2 = c :: ((l1' ++ [a]) ++ b :: l2) := by
      rw [hl]
      rfl
    rw [hr]
    show coalesceAux (2/5) c ((l1' ++ [a]) ++ b :: l2) = A ++ B
    exact heq

theorem tighten_append (P Q : List Seg) :
    tightenSegments (P ++ Q) = tightenSegments P ++ tightenSegments Q := by
  simp only [tightenSegments]
  exact List.flatMap_append P Q _

theorem tighten_cons (s : Seg) (l : List Seg) :
    tightenSegments (s :: l) = tightenSegments [s] ++ tightenSegments l := by
  simp only [tightenSegments, List.flatMap_cons, List.flatMap_nil,
    List.append_nil]

theorem chunksGo_ne_nil (m f : ℕ) (l : List String) (h : l ≠ []) :
    chunksGo m f l ≠ [] := by
  cases l with
  | nil => exact absurd rfl h
  | cons w ws =>
    cases f with
    | zero => simp [chunksGo]
    | succ f' => simp [chunksGo]

theorem chunkSegs_ne_nil (st per : ℚ) (i : ℕ) (c : String)
    (cs : List String) : chunkSegs st per i (c :: cs) ≠ [] := by
  simp [chunkSegs]

theorem chunkSegs_head (st per : ℚ) (i : ℕ) (c : String) (cs : List String) :
    (chunkSegs st per i (c :: cs)).head? =
      some { start := st + i * per, «end» := st + (i + 1) * per,
             text := c } := rfl

theorem chunkSegs_getLast (st per : ℚ) :
    ∀ (cs : List String) (c : String) (i : ℕ),
      ∃ x, (chunkSegs st per i (c :: cs)).getLast? = some x ∧
        x.«end» = st + ((i : ℚ) + (cs.length : ℚ) + 1) * per := by
  intro cs
  induction cs with
  | nil =>
    intro c i
    refine ⟨{ start := st + i * per, «end» := st + (i + 1) * per, text := c }, rfl, ?_⟩
    show st + ((i : ℚ) + 1) * per =
      st + ((i : ℚ) + ((([] : List String).length : ℕ) : ℚ) + 1) * per
    simp
  | cons c2 cs' ih =>
    intro c i
    obtain ⟨x, hx, he⟩ := ih c2 (i + 1)
    refine ⟨x, ?_, ?_⟩
    · show (chunkSegs st per i (c :: c2 :: cs')).getLast? = some x
      rw [chunkSegs]
      rw [getLast?_cons_of_ne_nil _ _ (chunkSegs_ne_nil st per (i+1) c2 cs')]
      exact hx
    · rw [he]
      simp only [List.length_cons]
      push_cast
      ring

theorem chunkSegs_mem (st per : ℚ) :
    ∀ (cs : List String) (i : ℕ), ∀ x ∈ chunkSegs st per i cs,
      ∃ j : ℕ, i ≤ j ∧ j + 1 ≤ i + cs.length ∧
        x.start = st + (j : ℚ) * per ∧
        x.«end» = st + ((j : ℚ) + 1) * per := by
  intro cs
  induction cs with
  | nil => intro i x hx; simp [chunkSegs] at hx
  | cons c cs' ih =>
    intro i x hx
    rw [chunkSegs] at hx
    rcases List.mem_cons.mp hx with rfl | hx
    · refine ⟨i, le_refl _, by rw [List.length_cons]; omega, rfl, rfl⟩
    · obtain ⟨j, h1, h2, h3, h4⟩ := ih (i + 1) x hx
      exact ⟨j, by omega, by rw [List.length_cons]; omega, h3, h4⟩

theorem chunkSegs_chain (st per : ℚ) :
    ∀ (cs : List String) (i : ℕ),
      List.Chain' (fun u v => u.«end» ≤ v.start) (chunkSegs st per i cs) := by
  intro cs
  induction cs with
  | nil => intro i; simp [chunkSegs]
  | cons c cs' ih =>
    intro i
    rw [chunkSegs, List.chain'_cons']
    refine ⟨?_, ih (i + 1)⟩
    intro y hy
    cases cs' with
    | nil => simp [chunkSegs] at hy
    | cons c2 cs'' =>
      rw [chunkSegs_head] at hy
      simp only [Option.mem_def, Option.some_inj] at hy
      subst hy
      show st + ((i : ℚ) + 1) * per ≤ st + ((i + 1 : ℕ) : ℚ) * per
      push_cast
      exact le_refl _

theorem tighten_single (s : Seg) (h0 : 0 ≤ s.start) (h1 : s.start < s.«end») :
    (∀ x ∈ tightenSegments [s], 0 ≤ x.start ∧ x.start < x.«end» ∧
      s.start ≤ x.start ∧ x.«end» ≤ s.«end») ∧
    List.Chain' (fun u v => u.«end» ≤ v.start) (tightenSegments [s]) ∧
    (∃ hd, (tightenSegments [s]).head? = some hd ∧ hd.start = s.start) ∧
    (∃ lt, (tightenSegments [s]).getLast? = some lt ∧
      lt.«end» = s.«end») := by
  rw [tightenSegments, List.flatMap_cons, List.flatMap_nil, List.append_nil]
  dsimp only
  by_cases hw : (splitWords s.text).length ≤ 18
  · rw [if_pos hw]
    refine ⟨?_, by simp, ⟨s, rfl, rfl⟩, ⟨s, rfl, rfl⟩⟩
    intro x hx
    simp only [List.mem_singleton] at hx
    subst hx
    exact ⟨h0, h1, le_refl _, le_refl _⟩
  · rw [if_neg hw]
    have hw' : 18 < (splitWords s.text).length := Nat.lt_of_not_le hw
    have hwordsne : splitWords s.text ≠ [] := by
      intro hcontra
      rw [hcontra] at hw'
      simp at hw'
    have hred : chunksOf 18 (splitWords s.text) =
        chunksGo 17 (splitWords s.text).length (splitWords s.text) := rfl
    have hchne : chunksOf 18 (splitWords s.text) ≠ [] := by
      rw [hred]
      exact chunksGo_ne_nil 17 _ _ hwordsne
    obtain ⟨ch, cht, hch⟩ : ∃ y ys,
        chunksOf 18 (splitWords s.text) = y :: ys := by
      cases hc : chunksOf 18 (splitWords s.text) with
      | nil => exact absurd hc hchne
      | cons y ys => exact ⟨y, ys, rfl⟩
    rw [hch]
    set per : ℚ := (s.«end» - s.start) / ((ch :: cht) : List String).length
      with hper
    have hl0 : (((ch :: cht) : List String).length : ℚ) =
        (cht.length : ℚ) + 1 := by
      push_cast [List.length_cons]
      ring
    have hperpos : 0 < per := by
      rw [hper]
      apply div_pos (by linarith)
      rw [hl0]
      positivity
    have hN0 : ((((ch :: cht) : List String).length : ℕ) : ℚ) ≠ 0 := by
      rw [hl0]
      positivity
    have hNper : ((((ch :: cht) : List String).length : ℕ) : ℚ) * per =
        s.«end» - s.start := by
      rw [hper]
      field_simp
    refine ⟨?_, chunkSegs_chain s.start per (ch :: cht) 0, ?_, ?_⟩
    · intro x hx
      obtain ⟨j, hj0, hjn, hjs, hje⟩ :=
        chunkSegs_mem s.start per (ch :: cht) 0 x hx
      have hjq : (0:ℚ) ≤ (j : ℚ) * per :=
        mul_nonneg (by positivity) (le_of_lt hperpos)
      have hjN : ((j:ℚ) + 1) ≤ ((((ch :: cht) : List String).length : ℕ) : ℚ) := by
        exact_mod_cast (by omega : j + 1 ≤ ((ch :: cht) : List String).length)
      have hmul : ((j:ℚ) + 1) * per ≤
          ((((ch :: cht) : List String).length : ℕ) : ℚ) * per :=
        mul_le_mul_of_nonneg_right hjN (le_of_lt hperpos)
      refine ⟨by rw [hjs]; linarith, ?_, by rw [hjs]; linarith, ?_⟩
      · rw [hjs, hje]
        nlinarith [hperpos]
      · rw [hje]
        linarith [hNper, hmul]
    · refine ⟨_, chunkSegs_head s.start per 0 ch cht, ?_⟩
      show s.start + ((0 : ℕ) : ℚ) * per = s.start
      push_cast
      ring
    · obtain ⟨x, hx, he⟩ := chunkSegs_getLast s.start per cht ch 0
      refine ⟨x, hx, ?_⟩
      rw [he]
      have hx2 : ((↑(0:ℕ) : ℚ) + (cht.length : ℚ) + 1) * per =
          ((((ch :: cht) : List String).length : ℕ) : ℚ) * per := by
        rw [hl0]
        push_cast
        ring
      rw [hx2, hNper]
      ring

theorem tighten_region :
    ∀ (l : List Seg),
      (∀ s ∈ l, 0 ≤ s.start ∧ s.start < s.«end») →
      List.Chain' (fun u v => u.«end» ≤ v.start) l →
      (∀ x ∈ tightenSegments l, 0 ≤ x.start ∧ x.start < x.«end») ∧
      List.Chain' (fun u v => u.«end» ≤ v.start) (tightenSegments l) ∧
      (∀ s, l.head? = some s →
        ∃ hd, (tightenSegments l).head? = some hd ∧ hd.start = s.start) ∧
      (∀ s, l.getLast? = some s →
        ∃ lt, (tightenSegments l).getLast? = some lt ∧
          lt.«end» = s.«end») := by
  intro l
  induction l with
  | nil =>
    intro _ _
    refine ⟨?_, ?_, ?_, ?_⟩ <;> simp [tightenSegments]
  | cons s rest ih =>
    intro hwf hchain
    have hs := hwf s (by simp)
    have hts := tighten_single s hs.1 hs.2
    have hihr := ih (fun x hx => hwf x (by simp [hx]))
      (List.chain'_cons'.mp hchain).2
    rw [tighten_cons]
    refine ⟨?_, ?_, ?_, ?_⟩
    · intro x hx
      rcases List.mem_append.mp hx with hx | hx
      · exact ⟨(hts.1 x hx).1, (hts.1 x hx).2.1⟩
      · exact hihr.1 x hx
    · rw [List.chain'_append]
      refine ⟨hts.2.1, hihr.2.1, ?_⟩
      intro x hx y hy
      cases rest with
      | nil =>
        rw [show tightenSegments ([] : List Seg) = [] from rfl] at hy
        simp at hy
      | cons r rs =>
        obtain ⟨hd, hhd, hhds⟩ := hihr.2.2.1 r rfl
        rw [hhd] at hy
        simp only [Option.mem_def, Option.some_inj] at hy
        subst hy
        obtain ⟨lt, hlt, hlte⟩ := hts.2.2.2
        rw [hlt] at hx
        simp only [Option.mem_def, Option.some_inj] at hx
        subst hx
        rw [hlte, hhds]
        exact (List.chain'_cons'.mp hchain).1 r rfl
    · intro s' hs'
      simp only [List.head?_cons, Option.some_inj] at hs'
      subst hs'
      obtain ⟨hd, hhd, hhds⟩ := hts.2.2.1
      refine ⟨hd, ?_, hhds⟩
      rw [List.head?_append, hhd]
      rfl
    · intro s' hs'
      cases rest with
      | nil =>
        simp only [List.getLast?_singleton, Option.some_inj] at hs'
        subst hs'
        obtain ⟨lt, hlt, hlte⟩ := hts.2.2.2
        refine ⟨lt, ?_, hlte⟩
        rw [show tightenSegments ([] : List Seg) = [] from rfl,
          List.append_nil]
        exact hlt
      | cons r rs =>
        rw [List.getLast?_cons_cons] at hs'
        obtain ⟨lt, hlt, hlte⟩ := hihr.2.2.2 s' hs'
        refine ⟨lt, ?_, hlte⟩
        rw [List.getLast?_append, hlt]
        rfl

theorem sanitizeSeg_start (x : Seg) (h : 0 ≤ x.start) :
    (sanitizeSeg x).start = x.start :=
  max_eq_right h

theorem sanitizeSeg_end (x : Seg) (h : 0 ≤ x.«end») :
    (sanitizeSeg x).«end» = x.«end» :=
  max_eq_right h

theorem chain'_map_san (l : List Seg)
    (hwf : ∀ x ∈ l, 0 ≤ x.start ∧ x.start < x.«end»)
    (hc : List.Chain' (fun u v => u.«end» ≤ v.start) l) :
    List.Chain' (fun u v => u.«end» ≤ v.start) (l.map sanitizeSeg) := by
  induction l with
  | nil => simp
  | cons s rest ih =>
    rw [List.map_cons, List.chain'_cons']
    refine ⟨?_, ih (fun x hx => hwf x (by simp [hx]))
      (List.chain'_cons'.mp hc).2⟩
    intro y hy
    cases rest with
    | nil => simp at hy
    | cons r rs =>
      rw [List.map_cons, List.head?_cons] at hy
      simp only [Option.mem_def, Option.some_inj] at hy
      subst hy
      have hsr : s.«end» ≤ r.start := (List.chain'_cons'.mp hc).1 r rfl
      have hsw := hwf s (by simp)
      have hrw := hwf r (by simp)
      rw [sanitizeSeg_end s (by linarith [hsw.1, hsw.2]),
        sanitizeSeg_start r hrw.1]
      exact hsr

theorem ends_le_last :
    ∀ (l : List Seg),
      List.Chain' (fun u v => u.«end» ≤ v.start) l →
      (∀ x ∈ l, x.start ≤ x.«end») →
      ∀ z, l.getLast? = some z → ∀ x ∈ l, x.«end» ≤ z.«end» := by
  intro l
  induction l with
  | nil => intro _ _ z hz; simp at hz
  | cons s rest ih =>
    intro hc hwf z hz x hx
    cases rest with
    | nil =>
      simp only [List.getLast?_singleton, Option.some_inj] at hz
      simp only [List.mem_singleton] at hx
      subst hz
      subst hx
      exact le_refl _
    | cons r rs =>
      rw [List.getLast?_cons_cons] at hz
      have hrz := ih (List.chain'_cons'.mp hc).2
        (fun u hu => hwf u (by simp [hu])) z hz
      rcases List.mem_cons.mp hx with rfl | hx
      · have hxr : x.«end» ≤ r.start := (List.chain'_cons'.mp hc).1 r rfl
        have hr2 : r.start ≤ r.«end» := hwf r (by simp)
        have hr3 : r.«end» ≤ z.«end» := hrz r (by simp)
        linarith
      · exact hrz x hx

theorem mapLast_append_right (f : Seg → Seg) :
    ∀ (P : List Seg) (q : Seg) (Q : List Seg),
      mapLast f (P ++ q :: Q) = P ++ mapLast f (q :: Q) := by
  intro P
  induction P with
  | nil => intro q Q; rfl
  | cons p P' ih =>
    intro q Q
    cases P' with
    | nil => rfl
    | cons p2 P'' =>
      show p :: mapLast f ((p2 :: P'') ++ q :: Q) =
        p :: ((p2 :: P'') ++ mapLast f (q :: Q))
      rw [ih q Q]

theorem extendTail_cases (tg : Option ℚ) (l : List Seg) :
    extendTail tg l = l ∨
      ∃ T, extendTail tg l =
        mapLast (fun s => { s with «end» := max s.«end» T }) l := by
  rw [extendTail]
  cases hl : l.getLast? with
  | none => left; rfl
  | some last =>
    cases tg with
    | none =>
      dsimp only
      by_cases h0 : (0:ℚ) < last.«end»
      · right
        exact ⟨last.«end», by rw [if_pos h0]⟩
      · left
        rw [if_neg h0]
    | some g =>
      dsimp only
      by_cases hg : (0:ℚ) < g
      · rw [if_pos hg, if_pos hg]
        right
        exact ⟨g, rfl⟩
      · rw [if_neg hg]
        by_cases h0 : (0:ℚ) < last.«end»
        · rw [if_pos h0]
          right
          exact ⟨last.«end», rfl⟩
        · rw [if_neg h0]
          left
          rfl

theorem extendTail_region (tg : Option ℚ) (P : List Seg) (q : Seg)
    (Q : List Seg) :
    ∃ q' Q', extendTail tg (P ++ q :: Q) = P ++ q' :: Q' ∧
      q'.start = q.start := by
  rcases extendTail_cases tg (P ++ q :: Q) with h | ⟨T, h⟩
  · exact ⟨q, Q, h, rfl⟩
  · rw [mapLast_append_right] at h
    cases Q with
    | nil => exact ⟨{ q with «end» := max q.«end» T }, [], h, rfl⟩
    | cons q2 Q2 =>
      exact ⟨q, mapLast (fun s => { s with «end» := max s.«end» T })
        (q2 :: Q2), h, rfl⟩

/-- **C2 (amended).**  A genuine silence gap of at least the 0.4 s
coalesce threshold between two consecutive well-formed spans `a` and `b`
of a sorted, non-overlapping input survives `normalizeSegments` — and
`segmentIndexAtTime` (at the default hold/lead-in/tail-out tolerances
0.05/0.03/0.06 s) answers `-1` for any query time inside the gap beyond
those tolerances — provided additionally that not both `a` and `b` are
shorter than the 0.4 s threshold; without that proviso the coalesce pass
merges the two short spans across the gap (see
`normalizeSegments_gap_cex`). -/
theorem normalizeSegments_gap_preserved (l1 l2 : List Seg) (a b : Seg)
    (tg : Option ℚ) (t : ℚ)
    (hchain : List.Chain' (fun u v => u.«end» ≤ v.start)
      (l1 ++ a :: b :: l2))
    (hwf : ∀ s ∈ l1 ++ a :: b :: l2, 0 ≤ s.start ∧ s.start < s.«end»)
    (hgap : a.«end» + 2/5 ≤ b.start)
    (hlong : 2/5 ≤ a.«end» - a.start ∨ 2/5 ≤ b.«end» - b.start)
    (ht1 : a.«end» + 3/50 + EPS < t)
    (ht2 : t < b.start - 3/100 - EPS) :
    segmentIndexAtTime (normalizeSegments (l1 ++ a :: b :: l2) tg) (.fin t)
      (1/20) (3/100) (3/50) = -1 := by
  have hEPS : EPS = 1/1000 := rfl
  rw [hEPS] at ht1 ht2
  have ha := hwf a (by simp)
  have hb := hwf b (by simp)
  obtain ⟨A, B, hco, hAne, hAwf, hAlast, hBne, hBhead, hBwf, hchAB⟩ :=
    coalesce_gap l1 l2 a b hchain hwf hlong
  have hchA : List.Chain' (fun u v => u.«end» ≤ v.start) A :=
    (List.chain'_append.mp hchAB).1
  have hchB : List.Chain' (fun u v => u.«end» ≤ v.start) B :=
    (List.chain'_append.mp hchAB).2.1
  obtain ⟨hTAwf, hTAch, hTAhead, hTAlast⟩ := tighten_region A hAwf hchA
  obtain ⟨hTBwf, hTBch, hTBhead, hTBlast⟩ := tighten_region B hBwf hchB
  obtain ⟨pA, hpA⟩ :=
    Option.isSome_iff_exists.mp (List.getLast?_isSome.mpr hAne)
  have hpAend : pA.«end» = a.«end» := hAlast pA hpA
  obtain ⟨ltA, hltA, hltAe⟩ := hTAlast pA hpA
  have hltAe' : ltA.«end» = a.«end» := by rw [hltAe, hpAend]
  obtain ⟨q0, B', hB⟩ : ∃ y ys, B = y :: ys := by
    cases B with
    | nil => exact absurd rfl hBne
    | cons y ys => exact ⟨y, ys, rfl⟩
  have hq0 : q0.start = b.start :=
    hBhead q0 (show B.head? = some q0 by rw [hB]; rfl)
  obtain ⟨hdB, hhdB, hhdBs⟩ := hTBhead q0 (by rw [hB]; rfl)
  have hhdBs' : hdB.start = b.start := by rw [hhdBs, hq0]
  obtain ⟨x0, TB', hTB⟩ : ∃ y ys, tightenSegments B = y :: ys := by
    cases htb : tightenSegments B with
    | nil => rw [htb] at hhdB; simp at hhdB
    | cons y ys => exact ⟨y, ys, rfl⟩
  have hx0 : x0 = hdB := by
    rw [hTB] at hhdB
    simpa using hhdB
  subst hx0
  have hchT : List.Chain' (fun u v => u.«end» ≤ v.start)
      (tightenSegments A ++ tightenSegments B) := by
    rw [List.chain'_append]
    refine ⟨hTAch, hTBch, ?_⟩
    intro x hx y hy
    rw [hltA] at hx
    rw [hhdB] at hy
    simp only [Option.mem_def, Option.some_inj] at hx hy
    subst hx
    subst hy
    rw [hltAe', hhdBs']
    linarith [hgap]
  have hTwf : ∀ x ∈ tightenSegments A ++ tightenSegments B,
      0 ≤ x.start ∧ x.start < x.«end» := by
    intro x hx
    rcases List.mem_append.mp hx with hx | hx
    · exact hTAwf x hx
    · exact hTBwf x hx
  have hMwf : ∀ x ∈ (tightenSegments A ++ tightenSegments B).map sanitizeSeg,
      0 ≤ x.start ∧ x.start < x.«end» := by
    intro x hx
    obtain ⟨y, hy, rfl⟩ := List.mem_map.mp hx
    have hyw := hTwf y hy
    rw [sanitizeSeg_start y hyw.1,
      sanitizeSeg_end y (by linarith [hyw.1, hyw.2])]
    exact hyw
  have hMch := chain'_map_san _ hTwf hchT
  show segmentIndexAtTime (extendTail tg (deoverlap (sortByKey Seg.start
    (((tightenSegments (coalesceSegments (l1 ++ a :: b :: l2))).map
      sanitizeSeg).filter (fun s => s.start < s.«end»))))) (.fin t)
      (1/20) (3/100) (3/50) = -1
  rw [hco, tighten_append]
  rw [List.filter_eq_self.mpr (fun s hs => by simpa using (hMwf s hs).2)]
  rw [sortByKey_eq_self Seg.start _
    (chain_start_le _ hMch (fun s hs => le_of_lt (hMwf s hs).2))]
  rw [deoverlap_id _ hMch]
  rw [List.map_append] at hMch ⊢
  rw [hTB, List.map_cons]
  obtain ⟨q', Q', hN, hq's⟩ := extendTail_region tg
    ((tightenSegments A).map sanitizeSeg) (sanitizeSeg x0)
    (TB'.map sanitizeSeg)
  rw [hN]
  have hdBwf := hTBwf x0 (by rw [hTB]; exact List.mem_cons_self _ _)
  have hq'start : q'.start = b.start := by
    rw [hq's, sanitizeSeg_start x0 hdBwf.1]
    exact hhdBs'
  have hP0last : ((tightenSegments A).map sanitizeSeg).getLast? =
      some (sanitizeSeg ltA) := by
    rw [List.getLast?_map, hltA]
    rfl
  have hltAwf := hTAwf ltA (List.mem_of_getLast?_eq_some hltA)
  have hsanltA_end : (sanitizeSeg ltA).«end» = a.«end» := by
    rw [sanitizeSeg_end ltA (by linarith [hltAwf.1, hltAwf.2]), hltAe']
  have hP0chain : List.Chain' (fun u v => u.«end» ≤ v.start)
      ((tightenSegments A).map sanitizeSeg) :=
    (List.chain'_append.mp hMch).1
  have hP0wf : ∀ x ∈ (tightenSegments A).map sanitizeSeg,
      0 ≤ x.start ∧ x.start < x.«end» := by
    intro x hx
    obtain ⟨y, hy, rfl⟩ := List.mem_map.mp hx
    have hyw := hTAwf y hy
    rw [sanitizeSeg_start y hyw.1,
      sanitizeSeg_end y (by linarith [hyw.1, hyw.2])]
    exact hyw
  have hP0ends : ∀ x ∈ (tightenSegments A).map sanitizeSeg,
      x.«end» ≤ a.«end» := by
    intro x hx
    have h := ends_le_last ((tightenSegments A).map sanitizeSeg) hP0chain
      (fun u hu => le_of_lt (hP0wf u hu).2) (sanitizeSeg ltA) hP0last x hx
    rw [hsanltA_end] at h
    exact h
  have hne : (tightenSegments A).map sanitizeSeg ++ q' :: Q' ≠ [] := by
    simp
  have ht0 : 0 ≤ t := by linarith [ha.1, ha.2]
  rw [segmentIndexAtTime, if_neg hne]
  have hclamp : jsClampTime (.fin t) = t := by
    simp [jsClampTime, not_lt.mpr ht0]
  rw [hclamp]
  have hskip : ∀ p ∈ (tightenSegments A).map sanitizeSeg,
      inWindow p t (3/100) (3/50) = false ∧ ¬(t < p.start - EPS) := by
    intro p hp
    have hpw := hP0wf p hp
    have hpe := hP0ends p hp
    constructor
    · rw [inWindow_eq_false_iff]
      intro hcon
      have h2 := hcon.2
      rw [hEPS] at h2
      linarith
    · rw [hEPS]
      intro hcon
      linarith [hpw.2]
  rw [segIdxAux_skip t (1/20) (3/100) (3/50)
    ((tightenSegments A).map sanitizeSeg) (q' :: Q') none 0 hskip]
  rw [hP0last]
  show segIdxAux t (1/20) (3/100) (3/50) (some (sanitizeSeg ltA))
    (0 + ((tightenSegments A).map sanitizeSeg).length) (q' :: Q') = -1
  have hwin : inWindow q' t (3/100) (3/50) = false := by
    rw [inWindow_eq_false_iff]
    intro hcon
    have h1 := hcon.1
    rw [hq'start, hEPS] at h1
    linarith
  have htlt : t < q'.start - EPS := by
    rw [hq'start, hEPS]
    linarith
  rw [segIdxAux]
  rw [if_neg (show ¬(inWindow q' t (3/100) (3/50) = true) by
    rw [hwin]; simp)]
  rw [if_pos htlt]
  show (if q'.start - (sanitizeSeg ltA).«end» ≤ 1/20 + EPS
    then ((0 + ((tightenSegments A).map sanitizeSeg).length : ℕ) : ℤ) - 1
    else -1) = -1
  rw [if_neg (show ¬(q'.start - (sanitizeSeg ltA).«end» ≤ 1/20 + EPS) by
    rw [hq'start, hsanltA_end, hEPS]
    intro hcon
    linarith)]

/-- **C2, witness.**  The amended gap theorem applied to the spec's own
example: span `[0,3]` followed by span `[5,8]` (a 2 s true silence), query
`t = 4` at the default tolerances — no active segment, index `-1`. -/
theorem normalizeSegments_gap_preserved_witness :
    segmentIndexAtTime
      (normalizeSegments [⟨0, 3, "a", none⟩, ⟨5, 8, "b", none⟩] none)
      (.fin 4) (1/20) (3/100) (3/50) = -1 :=
  normalizeSegments_gap_preserved [] [] ⟨0, 3, "a", none⟩ ⟨5, 8, "b", none⟩
    none 4
    (List.chain'_cons.mpr ⟨by norm_num, List.chain'_singleton _⟩)
    (by
      intro s hs
      rcases List.mem_cons.mp hs with rfl | hs
      · exact ⟨by norm_num, by norm_num⟩
      · rcases List.mem_cons.mp hs with rfl | hs
        · exact ⟨by norm_num, by norm_num⟩
        · simp at hs)
    (by norm_num)
    (Or.inl (by norm_num))
    (by norm_num [EPS])
    (by norm_num [EPS])

/-- **C2, counterexample to the unamended claim.**  The spans `[0, 0.3]`
and `[5, 5.3]` are consecutive and separated by a 4.7 s silence — far
above the 0.4 s coalesce threshold — yet both are shorter than that
threshold, so `coalesceSegments` merges them across the silence into the
single span `[0, 5.3]`: normalization bridges the gap, and the query
`t = 4` (inside the former gap, beyond the hold/lead-in/tail-out
tolerances) returns index `0` instead of `-1`. -/
theorem normalizeSegments_gap_cex :
    (⟨0, 3/10, "a", none⟩ : Seg).«end» + 2/5 ≤
      (⟨5, 53/10, "b", none⟩ : Seg).start ∧
    (⟨0, 3/10, "a", none⟩ : Seg).«end» + 3/50 + EPS < 4 ∧
    (4 : ℚ) < (⟨5, 53/10, "b", none⟩ : Seg).start - 3/100 - EPS ∧
    normalizeSegments [⟨0, 3/10, "a", none⟩, ⟨5, 53/10, "b", none⟩] none =
      [⟨0, 53/10, "a b", none⟩] ∧
    segmentIndexAtTime
      (normalizeSegments [⟨0, 3/10, "a", none⟩, ⟨5, 53/10, "b", none⟩] none)
      (.fin 4) (1/20) (3/100) (3/50) = 0 := by
  have htext : jsTrim ("a" ++ " " ++ "b") = "a b" := by decide
  have htrim2 : jsTrim "a b" = "a b" := by decide
  have hsw : (splitWords "a b").length = 2 := by decide
  have h1 : normalizeSegments
      [⟨0, 3/10, "a", none⟩, ⟨5, 53/10, "b", none⟩] none =
      [⟨0, 53/10, "a b", none⟩] := by
    repeat
      first
      | rfl
      | norm_num [normalizeSegments, coalesceSegments, coalesceAux,
          tightenSegments, htext, htrim2, hsw, sanitizeSeg, sortByKey,
          insertByKey, deoverlap, deoverlapAux, extendTail, mapLast]
  refine ⟨by norm_num, by norm_num [EPS], by norm_num [EPS], h1, ?_⟩
  rw [h1]
  rw [segmentIndexAtTime]
  norm_num [segIdxAux, jsClampTime, inWindow, EPS]
